import Mathlib

/-!
Verification development for the billSherlock repository.

The Python sources (`src/main.py`, `src/parser.py`, `src/models.py`) are
embedded shallowly: text is modelled as `List Char`, money amounts as `ℚ`
(Python floats carry exact decimal literals in every claim considered here,
so sign and comparison behaviour is preserved), fallible operations return
`Option`/`Except`, and filesystem paths are lists of components rendered to
strings exactly where the source compares strings.
-/

namespace BillSherlock

/- The arithmetic of `ℚ` in core Lean is sound but hidden from definitional
unfolding; re-opening it lets concrete parses evaluate inside `decide`. -/
attribute [local semireducible] Rat.add Rat.mul Rat.inv Rat.sub

instance {ε α : Type} [DecidableEq ε] [DecidableEq α] : DecidableEq (Except ε α)
  | .ok a, .ok b =>
    if h : a = b then isTrue (by rw [h]) else isFalse (by intro hc; cases hc; exact h rfl)
  | .error a, .error b =>
    if h : a = b then isTrue (by rw [h]) else isFalse (by intro hc; cases hc; exact h rfl)
  | .ok _, .error _ => isFalse (by intro hc; cases hc)
  | .error _, .ok _ => isFalse (by intro hc; cases hc)

/-! ## Basic character and string utilities (Python `str` primitives) -/

/-- Python `\s` / `str.strip` whitespace, restricted to the ASCII whitespace
characters that occur in bill documents. -/
def isWsPy (c : Char) : Bool :=
  c = ' ' || c = '\t' || c = '\n' || c = '\r' || c = '\x0b' || c = '\x0c'

/-- Python `\d` (ASCII digits, the only digits appearing in bill ids). -/
def isDigitCh (c : Char) : Bool :=
  '0' ≤ c && c ≤ '9'

/-- `str.strip()` : drop leading and trailing whitespace. -/
def stripPy (s : List Char) : List Char :=
  (((s.dropWhile isWsPy).reverse).dropWhile isWsPy).reverse

/-- `str.lstrip()` : drop leading whitespace only. -/
def lstripPy (s : List Char) : List Char :=
  s.dropWhile isWsPy

/-- Replace every occurrence of a single character (Python
`str.replace(old, new)` for one-character patterns). -/
def replaceCh (oldc newc : Char) (s : List Char) : List Char :=
  s.map (fun c => if c = oldc then newc else c)

/-- Delete every occurrence of a single character (Python
`str.replace(old, "")` for one-character patterns). -/
def deleteCh (oldc : Char) (s : List Char) : List Char :=
  s.filter (fun c => c ≠ oldc)

/-- Fuel-driven core of `replaceSub` (structural recursion so that the
kernel can evaluate it). -/
def replaceSubF (pat rep : List Char) : Nat → List Char → List Char
  | 0, s => s
  | _ + 1, [] => []
  | fuel + 1, s@(c :: rest) =>
    if pat ≠ [] ∧ pat.isPrefixOf s then
      rep ++ replaceSubF pat rep fuel (s.drop pat.length)
    else
      c :: replaceSubF pat rep fuel rest

/-- Python `str.replace(pat, rep)` : replace non-overlapping occurrences
left to right. -/
def replaceSub (s pat rep : List Char) : List Char :=
  replaceSubF pat rep s.length s

/-- Does `pat` occur at some position of `s`?  (Python `pat in s`.) -/
def containsSub (s pat : List Char) : Bool :=
  match s with
  | [] => pat.isPrefixOf ([] : List Char)
  | _ :: rest => pat.isPrefixOf s || containsSub rest pat

/-- Scanning core of `findSubFrom`. -/
def findSubAux : List Char → List Char → Nat → Option Nat
  | [], pat, pos => if pat.isPrefixOf ([] : List Char) then some pos else none
  | s@(_ :: rest), pat, pos =>
    if pat.isPrefixOf s then some pos else findSubAux rest pat (pos + 1)

/-- Python `str.find(pat, start)` : index of the leftmost occurrence of
`pat` at position `≥ start`, or `none`. -/
def findSubFrom (s pat : List Char) (start : Nat) : Option Nat :=
  findSubAux (s.drop start) pat start

/-- Accumulator core of `splitLinesPy`. -/
def splitLinesAux : List Char → List Char → List (List Char)
  | [], acc => [acc.reverse]
  | c :: rest, acc =>
    if c = '\n' then acc.reverse :: splitLinesAux rest []
    else splitLinesAux rest (c :: acc)

/-- Python `str.splitlines()` restricted to `'\n'` terminators (carriage
returns are consumed by the subsequent `strip`). -/
def splitLinesPy (s : List Char) : List (List Char) :=
  splitLinesAux s []

/-- ASCII lower-casing (Python `str.lower`; the extensions compared against
are ASCII literals, so non-ASCII characters may pass through unchanged). -/
def toLowerAscii (s : List Char) : List Char :=
  s.map (fun c => if 'A' ≤ c && c ≤ 'Z' then Char.ofNat (c.toNat + 32) else c)

/-- Value of a list of ASCII digits read in base 10. -/
def digitsToNat (l : List Char) : Nat :=
  l.foldl (fun acc c => acc * 10 + (c.toNat - '0'.toNat)) 0

/-! ## Maximal digit runs and `_pick_best_numeric_id` (parser.py:108) -/

/-- Emit the digit run collected (reversed) in `acc`, if any. -/
def emitAcc (acc : List Char) : List (List Char) :=
  if acc = [] then [] else [acc.reverse]

/-- Accumulator pass collecting the maximal runs of consecutive digits. -/
def runsAux : List Char → List Char → List (List Char)
  | [], acc => emitAcc acc
  | c :: rest, acc =>
    if isDigitCh c then runsAux rest (c :: acc)
    else emitAcc acc ++ runsAux rest []

/-- The maximal runs of consecutive ASCII digits in a string, in order.
`re.findall(r"\d{16,}", s)` equals `digitRuns s` filtered to length ≥ 16:
the regex is greedy, so each match is a whole maximal run. -/
def digitRuns (s : List Char) : List (List Char) :=
  runsAux s []

/-- `re.sub(r"\s+", rep, s)` for a one-character replacement: every maximal
whitespace run collapses to the single character `rep` (the Bool flag
records being inside a run whose replacement was already emitted). -/
def collapseWs (rep : Char) : Bool → List Char → List Char
  | _, [] => []
  | true, c :: rest =>
    if isWsPy c then collapseWs rep true rest
    else c :: collapseWs rep false rest
  | false, c :: rest =>
    if isWsPy c then rep :: collapseWs rep true rest
    else c :: collapseWs rep false rest

/-- Python string order on `List Char` (lexicographic by code point,
a strict prefix is smaller). -/
def lexLtCh : List Char → List Char → Bool
  | [], [] => false
  | [], _ :: _ => true
  | _ :: _, [] => false
  | a :: as', b :: bs' => a < b || (a = b && lexLtCh as' bs')

/-- Sort key order of `_pick_best_numeric_id`: the Python key is
`(-len(x), x)`, so `keyLt a b` holds when `a` sorts strictly before `b`. -/
def keyLt (a b : List Char) : Bool :=
  b.length < a.length || (a.length = b.length && lexLtCh a b)

/-- First element of the candidate list sorted by `keyLt` (the stable sort
followed by `[0]` in the source selects exactly the fold-minimum, keeping
the earlier candidate on equal keys — and equal keys force equal strings). -/
def selectBest (c : List Char) (cs : List (List Char)) : List Char :=
  cs.foldl (fun best x => if keyLt x best then x else best) c

/-- `_pick_best_numeric_id` (parser.py:108-116): collapse whitespace to
`'|'`, collect the maximal digit runs of length ≥ 16, and return the one
sorting first by `(-length, lexicographic)`; `""` when there is none. -/
def pickBestNumericId (raw : List Char) : List Char :=
  if raw = [] then []
  else
    match (digitRuns (collapseWs '|' false raw)).filter (fun r => 16 ≤ r.length) with
    | [] => []
    | c :: cs => selectBest c cs

/-! ## Hand-compiled forms of the regular expressions used by parser.py

Each Python regex is compiled to a total matcher over `List Char`.
Greedy repetition with backtracking is resolved statically where the
alternatives are mutually exclusive (noted case by case); leftmost-match
search is a positional scan. -/

/-- Python `\w` for the character classes appearing in these documents:
ASCII alphanumerics, underscore, and CJK Unified Ideographs. -/
def isWordCh (c : Char) : Bool :=
  c.isAlphanum || c = '_' || (0x4E00 ≤ c.toNat && c.toNat ≤ 0x9FFF)

/-- `\b` on the left of a match: previous character absent or non-word. -/
def bndBefore (prev : Option Char) : Bool :=
  match prev with
  | none => true
  | some p => !isWordCh p

/-- `\b` on the right of a match: next character absent or non-word. -/
def bndAfter (rest : List Char) : Bool :=
  match rest with
  | [] => true
  | c :: _ => !isWordCh c

/-- Exactly `n` digits; returns the remainder. -/
def takeNDigits (n : Nat) (s : List Char) : Option (List Char) :=
  if (s.take n).length = n ∧ (s.take n).all isDigitCh then some (s.drop n) else none

def isDateSep (c : Char) : Bool := c = '-' || c = '/' || c = '.'

def isDateSep2 (c : Char) : Bool := c = '-' || c = '/'

/-- `\d{1,2}` followed by a separator (with the regex backtracking resolved:
a two-digit take needs the separator right after, a one-digit take needs the
separator at the second character — mutually exclusive). Remainder starts
after the separator. -/
def matchMidSep (sep : Char → Bool) : List Char → Option (List Char)
  | [] => none
  | a :: rest1 =>
    if !isDigitCh a then none
    else
      match rest1 with
      | [] => none
      | b :: rest2 =>
        if isDigitCh b then
          match rest2 with
          | [] => none
          | c :: rr => if sep c then some rr else none
        else if sep b then some rest2
        else none

/-- Trailing greedy `\d{1,2}` (two digits if available, else one). -/
def matchD12 : List Char → Option (List Char)
  | [] => none
  | a :: rest1 =>
    if !isDigitCh a then none
    else
      match rest1 with
      | [] => some []
      | b :: rest2 => if isDigitCh b then some rest2 else some rest1

/-- The date pattern `\d{4} sep \d{1,2} sep \d{1,2}` with sep one of
dash, slash, dot, at the head of `s`; remainder on success. -/
def matchDateAt (s : List Char) : Option (List Char) :=
  (takeNDigits 4 s).bind fun r1 =>
    match r1 with
    | [] => none
    | c :: r2 =>
      if isDateSep c then (matchMidSep isDateSep r2).bind matchD12 else none

/-- `\d{1,2}:\d{2}` at the head of `s` (hour alternatives are exclusive). -/
def matchClockCore : List Char → Option (List Char)
  | [] => none
  | a :: rest1 =>
    if !isDigitCh a then none
    else
      match rest1 with
      | [] => none
      | b :: rest2 =>
        if isDigitCh b then
          match rest2 with
          | [] => none
          | c :: rr => if c = ':' then takeNDigits 2 rr else none
        else if b = ':' then takeNDigits 2 rest2
        else none

/-- Optional `(?::\d{2})` (greedy). -/
def trySeconds : List Char → Option (List Char)
  | ':' :: rr => takeNDigits 2 rr
  | _ => none

/-- `\b\d{1,2}:\d{2}(?::\d{2})?\b` at the head of `s`; returns the match
length.  The optional seconds are dropped again when the trailing boundary
fails after them. -/
def matchClockBndAt (s : List Char) (prev : Option Char) : Option Nat :=
  if !bndBefore prev then none
  else
    (matchClockCore s).bind fun r1 =>
      match trySeconds r1 with
      | some r2 =>
        if bndAfter r2 then some (s.length - r2.length)
        else if bndAfter r1 then some (s.length - r1.length)
        else none
      | none => if bndAfter r1 then some (s.length - r1.length) else none

/-- The date-plus-clock pattern `\d{4} sep \d{1,2} sep \d{1,2} \s+
\d{1,2}:\d{2}(?::\d{2})?` with sep a dash or slash, at the head of `s`;
remainder on success (day/hour backtracking is vacuous since the rejected
character is always another digit). -/
def matchDateTimeAt (s : List Char) : Option (List Char) :=
  (takeNDigits 4 s).bind fun r1 =>
    match r1 with
    | [] => none
    | c :: r2 =>
      if !isDateSep2 c then none
      else
        ((matchMidSep isDateSep2 r2).bind matchD12).bind fun r3 =>
          match r3 with
          | [] => none
          | w :: _ =>
            if !isWsPy w then none
            else
              (matchClockCore (r3.dropWhile isWsPy)).map fun r4 =>
                match trySeconds r4 with
                | some r5 => r5
                | none => r4

/-- `\b\d{1,10}\.\d{2}\b` at the head of `s`; returns the match length.
A digit take shorter than the whole run always faces another digit instead
of `'.'`, so only the full run (when ≤ 10 digits) can match. -/
def matchAmtDecAt (s : List Char) (prev : Option Char) : Option Nat :=
  if !bndBefore prev then none
  else
    let run := s.takeWhile isDigitCh
    if 1 ≤ run.length ∧ run.length ≤ 10 then
      match s.drop run.length with
      | '.' :: d1 :: d2 :: rr =>
        if isDigitCh d1 && isDigitCh d2 && bndAfter rr then some (run.length + 3) else none
      | _ => none
    else none

/-- `[+-]?\d{1,10}\.\d{2}(?!\d)` at the head of `s`: the capture group of
the first amount regex.  Returns (group length, remainder). -/
def matchAmtGroupAt (s : List Char) : Option (Nat × List Char) :=
  let signLen := match s with
    | '+' :: _ => 1
    | '-' :: _ => 1
    | _ => 0
  let s1 := s.drop signLen
  let run := s1.takeWhile isDigitCh
  if 1 ≤ run.length ∧ run.length ≤ 10 then
    match s1.drop run.length with
    | '.' :: d1 :: d2 :: rr =>
      if isDigitCh d1 && isDigitCh d2 && !(match rr with | c :: _ => isDigitCh c | [] => false) then
        some (signLen + run.length + 3, rr)
      else none
    | _ => none
  else none

/-- `(?:¥\s*)?([+-]?\d{1,10}\.\d{2})(?!\d)` at the head of `s`: returns
(offset of the group, group length).  The prefix-less alternative can never
succeed where the prefixed one starts (the `'¥'` is not sign or digit). -/
def matchAmt1At (s : List Char) : Option (Nat × Nat) :=
  match s with
  | '¥' :: rest =>
    let wsLen := (rest.takeWhile isWsPy).length
    match matchAmtGroupAt (rest.drop wsLen) with
    | some (g, _) => some (1 + wsLen, g)
    | none => none
  | _ =>
    match matchAmtGroupAt s with
    | some (g, _) => some (0, g)
    | none => none

/-- `\s*元` : skip whitespace, require the literal; remainder on success. -/
def wsYuan (r : List Char) : Option (List Char) :=
  match r.dropWhile isWsPy with
  | '元' :: rest => some rest
  | _ => none

/-- `([+-]?\d+(?:\.\d{1,2})?)\s*元` at the head of `s`: returns
(group length, total match length).  Only the full digit run can serve as
`\d+` (a shorter take faces another digit), and the fraction alternatives
are tried greedily (two digits, one digit, none). -/
def matchAmt2At (s : List Char) : Option (Nat × Nat) :=
  let signLen := match s with
    | '+' :: _ => 1
    | '-' :: _ => 1
    | _ => 0
  let s1 := s.drop signLen
  let run := s1.takeWhile isDigitCh
  if run.length = 0 then none
  else
    let base := signLen + run.length
    match s1.drop run.length with
    | '.' :: d1 :: d2 :: rr =>
      if isDigitCh d1 && isDigitCh d2 then
        match wsYuan rr with
        | some rest => some (base + 3, s.length - rest.length)
        | none =>
          -- greedy fallback to a one-digit fraction
          match wsYuan (d2 :: rr) with
          | some rest => some (base + 2, s.length - rest.length)
          | none =>
            match wsYuan ('.' :: d1 :: d2 :: rr) with
            | some rest => some (base, s.length - rest.length)
            | none => none
      else if isDigitCh d1 then
        match wsYuan (d2 :: rr) with
        | some rest => some (base + 2, s.length - rest.length)
        | none =>
          match wsYuan ('.' :: d1 :: d2 :: rr) with
          | some rest => some (base, s.length - rest.length)
          | none => none
      else
        match wsYuan ('.' :: d1 :: d2 :: rr) with
        | some rest => some (base, s.length - rest.length)
        | none => none
    | '.' :: d1 :: [] =>
      if isDigitCh d1 then
        match wsYuan ([] : List Char) with
        | some rest => some (base + 2, s.length - rest.length)
        | none =>
          match wsYuan ['.', d1] with
          | some rest => some (base, s.length - rest.length)
          | none => none
      else
        match wsYuan ['.', d1] with
        | some rest => some (base, s.length - rest.length)
        | none => none
    | r =>
      match wsYuan r with
      | some rest => some (base, s.length - rest.length)
      | none => none

/-- Generic leftmost-match scan: try the positional matcher at every
position from left to right, tracking the previous character. -/
def scanFind {α : Type} (m : List Char → Option Char → Option α) :
    List Char → Nat → Option Char → Option (Nat × α)
  | [], _, _ => none
  | s@(c :: rest), pos, prev =>
    match m s prev with
    | some a => some (pos, a)
    | none => scanFind m rest (pos + 1) (some c)

/-- `re.search` of the date pattern (dash, slash or dot separators) :
(start, stop). -/
def searchDate (s : List Char) : Option (Nat × Nat) :=
  (scanFind (fun su _ => (matchDateAt su).map fun rem => su.length - rem.length) s 0 none).map
    fun (pos, len) => (pos, pos + len)

/-- `re.search(r"\b\d{1,2}:\d{2}(?::\d{2})?\b", s)` : (start, stop). -/
def searchClock (s : List Char) : Option (Nat × Nat) :=
  (scanFind (fun su prev => matchClockBndAt su prev) s 0 none).map
    fun (pos, len) => (pos, pos + len)

/-- `re.search` of the date-plus-clock pattern (dash or slash separators)
as a match test with extent (start, stop). -/
def searchDateTime (s : List Char) : Option (Nat × Nat) :=
  (scanFind (fun su _ => (matchDateTimeAt su).map fun rem => su.length - rem.length) s 0 none).map
    fun (pos, len) => (pos, pos + len)

/-- `re.search(r"\b\d{1,10}\.\d{2}\b", s)` as a Bool (only existence is used). -/
def hasAmtDec (s : List Char) : Bool :=
  (scanFind matchAmtDecAt s 0 none).isSome

/-- `re.search(r"\d{16,}", s)` : the leftmost maximal digit run of length
≥ 16 (the first qualifying position is necessarily a run start). -/
def searchRun16 (s : List Char) : Option (List Char) :=
  (scanFind
    (fun su _ =>
      let run := su.takeWhile isDigitCh
      if 16 ≤ run.length then some run else none) s 0 none).map Prod.snd

/-- `re.search(r"共\d+笔", s)` as a Bool (summary-row filter). -/
def hasSummaryMark (s : List Char) : Bool :=
  (scanFind
    (fun su _ =>
      match su with
      | '共' :: rest =>
        let run := rest.takeWhile isDigitCh
        if 1 ≤ run.length then
          match rest.drop run.length with
          | '笔' :: _ => some ()
          | _ => none
        else none
      | _ => none) s 0 none).isSome

/-- An amount match: the capture-group text bounds and the overall end. -/
structure AmtMatch where
  gStart : Nat
  gStop : Nat
  stop : Nat
  deriving Repr, DecidableEq

/-- First amount regex search (`¥`-prefixed decimal with two forced cents). -/
def searchAmt1 (s : List Char) : Option AmtMatch :=
  (scanFind (fun su _ => matchAmt1At su) s 0 none).map
    fun (pos, off, glen) => ⟨pos + off, pos + off + glen, pos + off + glen⟩

/-- Second amount regex search (`元`-suffixed amount). -/
def searchAmt2 (s : List Char) : Option AmtMatch :=
  (scanFind (fun su _ => matchAmt2At su) s 0 none).map
    fun (pos, glen, tlen) => ⟨pos, pos + glen, pos + tlen⟩

/-- The payment-method vocabulary of `_parse_wechat_text_block`
(alternation order preserved). -/
def methodKeywords : List (List Char) :=
  ["零钱通".toList, "零钱".toList, "银行卡".toList, "信用卡".toList,
   "亲属卡".toList, "组合支付".toList, "余额".toList, "分付".toList]

/-- `re.search(r"(零钱通|零钱|银行卡|信用卡|亲属卡|组合支付|余额|分付)", s)` :
leftmost position, first alternative in order at that position. -/
def searchMethod (s : List Char) : Option (List Char) :=
  (scanFind
    (fun su _ => methodKeywords.find? (fun kw => kw.isPrefixOf su)) s 0 none).map Prod.snd

/-- Fuel-driven `re.sub(r"\b\d{16,}\b", " ", s)`. -/
def subIdRunsF : Nat → List Char → Option Char → List Char
  | 0, s, _ => s
  | _ + 1, [], _ => []
  | fuel + 1, s@(c :: rest), prev =>
    let run := s.takeWhile isDigitCh
    if bndBefore prev ∧ 16 ≤ run.length ∧ bndAfter (s.drop run.length) then
      ' ' :: subIdRunsF fuel (s.drop run.length) (some '0')
    else
      c :: subIdRunsF fuel rest (some c)

/-- `re.sub(r"\b\d{16,}\b", " ", s)` (the placeholder previous character
after a replaced run is a digit, preserving the word-boundary state). -/
def subIdRuns (s : List Char) : List Char :=
  subIdRunsF s.length s none

/-- Fuel-driven `re.sub(r"\b\d{1,2}:\d{2}(?::\d{2})?\b", " ", s)`. -/
def subClockF : Nat → List Char → Option Char → List Char
  | 0, s, _ => s
  | _ + 1, [], _ => []
  | fuel + 1, s@(c :: rest), prev =>
    match matchClockBndAt s prev with
    | some len => ' ' :: subClockF fuel (s.drop len) (some '0')
    | none => c :: subClockF fuel rest (some c)

/-- `re.sub(r"\b\d{1,2}:\d{2}(?::\d{2})?\b", " ", s)`. -/
def subClock (s : List Char) : List Char :=
  subClockF s.length s none

/-! ## `parse_amount` (parser.py:30-37) -/

/-- The decimal fragment of Python `float(s)` : optional sign, digits with
an optional fractional part, nothing else.  (Exponents, `inf`/`nan` and
underscore separators never occur in bill amount cells and are omitted.) -/
def parseFloatPy (s : List Char) : Option ℚ :=
  let sign : ℚ := match s with
    | '-' :: _ => -1
    | _ => 1
  let s1 := match s with
    | '-' :: r => r
    | '+' :: r => r
    | r => r
  let intPart := s1.takeWhile isDigitCh
  let s2 := s1.drop intPart.length
  match s2 with
  | [] => if intPart = [] then none else some (sign * digitsToNat intPart)
  | '.' :: fr =>
    let fracPart := fr.takeWhile isDigitCh
    if fr.drop fracPart.length ≠ [] then none
    else if intPart = [] ∧ fracPart = [] then none
    else some (sign * ((digitsToNat intPart : ℚ) +
      (digitsToNat fracPart : ℚ) / (10 ^ fracPart.length : ℚ)))
  | _ => none

/-- `parse_amount` on a string: strip `','` and `'¥'`, trim, parse as a
float; any failure yields `0.0`. -/
def parseAmountStr (s : List Char) : ℚ :=
  match parseFloatPy (stripPy (deleteCh '¥' (deleteCh ',' s))) with
  | some q => q
  | none => 0

/-- `parse_amount` on a nullable value (`None` yields `0.0`). -/
def parseAmountOpt : Option (List Char) → ℚ
  | none => 0
  | some s => parseAmountStr s

/-! ## `parse_datetime` (parser.py:39-63) and the CPython `strptime` core

`datetime.strptime` compiles a format into a regex (`Lib/_strptime.py`):
`%Y` is exactly four digits; `%m`, `%d`, `%H`, `%M`, `%S` are ordered
alternations preferring the two-digit form; literal whitespace in the
format matches `\s+`; the whole string must be consumed; the resulting
fields must form a valid `datetime` (otherwise `ValueError`, which
`parse_datetime` catches and turns into trying the next format). -/

inductive Dir where
  | Y | mo | dy | H | Mi | S | ws | lit (c : Char)
  deriving Repr, DecidableEq

/-- The candidate (value, consumed-length) pairs of one directive at the
head of `s`, in regex alternation order. -/
def dirCands (d : Dir) (s : List Char) : List (Nat × Nat) :=
  match d with
  | .Y =>
    if (s.take 4).length = 4 ∧ (s.take 4).all isDigitCh then [(digitsToNat (s.take 4), 4)] else []
  | .mo =>
    (match s with
     | a :: b :: _ =>
       if a = '1' && '0' ≤ b && b ≤ '2' then [(digitsToNat [a, b], 2)]
       else if a = '0' && '1' ≤ b && b ≤ '9' then [(digitsToNat [a, b], 2)]
       else []
     | _ => []) ++
    (match s with
     | a :: _ => if '1' ≤ a && a ≤ '9' then [(digitsToNat [a], 1)] else []
     | _ => [])
  | .dy =>
    (match s with
     | a :: b :: _ =>
       if a = '3' && '0' ≤ b && b ≤ '1' then [(digitsToNat [a, b], 2)]
       else if ('1' ≤ a && a ≤ '2') && isDigitCh b then [(digitsToNat [a, b], 2)]
       else if a = '0' && '1' ≤ b && b ≤ '9' then [(digitsToNat [a, b], 2)]
       else []
     | _ => []) ++
    (match s with
     | a :: _ => if '1' ≤ a && a ≤ '9' then [(digitsToNat [a], 1)] else []
     | _ => [])
  | .H =>
    (match s with
     | a :: b :: _ =>
       if a = '2' && '0' ≤ b && b ≤ '3' then [(digitsToNat [a, b], 2)]
       else if ('0' ≤ a && a ≤ '1') && isDigitCh b then [(digitsToNat [a, b], 2)]
       else []
     | _ => []) ++
    (match s with
     | a :: _ => if isDigitCh a then [(digitsToNat [a], 1)] else []
     | _ => [])
  | .Mi =>
    (match s with
     | a :: b :: _ =>
       if ('0' ≤ a && a ≤ '5') && isDigitCh b then [(digitsToNat [a, b], 2)] else []
     | _ => []) ++
    (match s with
     | a :: _ => if isDigitCh a then [(digitsToNat [a], 1)] else []
     | _ => [])
  | .S =>
    (match s with
     | a :: b :: _ =>
       if a = '6' && '0' ≤ b && b ≤ '1' then [(digitsToNat [a, b], 2)]
       else if ('0' ≤ a && a ≤ '5') && isDigitCh b then [(digitsToNat [a, b], 2)]
       else []
     | _ => []) ++
    (match s with
     | a :: _ => if isDigitCh a then [(digitsToNat [a], 1)] else []
     | _ => [])
  | .ws =>
    let k := (s.takeWhile isWsPy).length
    ((List.range k).reverse).map (fun i => (0, i + 1))
  | .lit c =>
    match s with
    | c' :: _ => if c' = c then [(0, 1)] else []
    | _ => []

/-- Parsed field assignments, with the CPython strptime defaults. -/
structure TimeEnv where
  year : Nat := 1900
  month : Nat := 1
  day : Nat := 1
  hour : Nat := 0
  minute : Nat := 0
  second : Nat := 0
  deriving Repr, DecidableEq

def applyDir (e : TimeEnv) (d : Dir) (v : Nat) : TimeEnv :=
  match d with
  | .Y => { e with year := v }
  | .mo => { e with month := v }
  | .dy => { e with day := v }
  | .H => { e with hour := v }
  | .Mi => { e with minute := v }
  | .S => { e with second := v }
  | .ws => e
  | .lit _ => e

/-- Backtracking match of a directive list against the whole of `s`
(depth-first through the alternation candidates, i.e. regex order). -/
def parseDirs : List Dir → List Char → TimeEnv → Option TimeEnv
  | [], s, e => if s = [] then some e else none
  | d :: ds, s, e =>
    (dirCands d s).findSome? (fun vk => parseDirs ds (s.drop vk.2) (applyDir e d vk.1))

def isLeapYear (y : Nat) : Bool :=
  (y % 4 = 0 && y % 100 ≠ 0) || y % 400 = 0

def daysInMonth (y m : Nat) : Nat :=
  if m = 2 then (if isLeapYear y then 29 else 28)
  else if m = 4 ∨ m = 6 ∨ m = 9 ∨ m = 11 then 30
  else 31

/-- A `datetime.datetime` value. -/
structure PyDateTime where
  year : Nat
  month : Nat
  day : Nat
  hour : Nat
  minute : Nat
  second : Nat
  deriving Repr, DecidableEq

/-- The `datetime` constructor: range checks, `ValueError` as `none`. -/
def mkDateTime (e : TimeEnv) : Option PyDateTime :=
  if 1 ≤ e.year ∧ e.year ≤ 9999 ∧ 1 ≤ e.month ∧ e.month ≤ 12 ∧
      1 ≤ e.day ∧ e.day ≤ daysInMonth e.year e.month ∧
      e.hour ≤ 23 ∧ e.minute ≤ 59 ∧ e.second ≤ 59 then
    some ⟨e.year, e.month, e.day, e.hour, e.minute, e.second⟩
  else none

/-- `datetime.strptime(s, fmt)` for one compiled format. -/
def strptimeFmt (dirs : List Dir) (s : List Char) : Option PyDateTime :=
  (parseDirs dirs s {}).bind mkDateTime

/-- The format list of `parse_datetime` (parser.py:48-56), in order.  The
two `"%Y.%m.%d"` entries are kept although the preceding normalisation has
already replaced every `'.'`. -/
def pyFormats : List (List Dir) :=
  [[.Y, .lit '-', .mo, .lit '-', .dy, .ws, .H, .lit ':', .Mi, .lit ':', .S],
   [.Y, .lit '-', .mo, .lit '-', .dy, .ws, .H, .lit ':', .Mi],
   [.Y, .lit '/', .mo, .lit '/', .dy, .ws, .H, .lit ':', .Mi],
   [.Y, .lit '/', .mo, .lit '/', .dy, .ws, .H, .lit ':', .Mi, .lit ':', .S],
   [.Y, .lit '.', .mo, .lit '.', .dy, .ws, .H, .lit ':', .Mi, .lit ':', .S],
   [.Y, .lit '.', .mo, .lit '.', .dy, .ws, .H, .lit ':', .Mi],
   [.Y, .lit '-', .mo, .lit '-', .dy]]

/-- The normalisation of `parse_datetime` (parser.py:42-46): strip, map
newlines to spaces, collapse one round of double spaces, rewrite the CJK
date markers, and turn dots into dashes. -/
def normalizeDt (s : List Char) : List Char :=
  replaceCh '.' '-'
    (deleteCh '日'
      (replaceCh '月' '-'
        (replaceCh '年' '-'
          (replaceSub (replaceCh '\n' ' ' (stripPy s)) [' ', ' '] [' ']))))

/-- `parse_datetime` on a string: try each format in order, `None` when all
fail.  `strptime` raises only `ValueError` on a string argument, which the
source catches, so the embedding is total. -/
def parseDatetimeStr (s : List Char) : Option PyDateTime :=
  pyFormats.findSome? (fun f => strptimeFmt f (normalizeDt s))

/-- `parse_datetime` on a nullable value (`None` yields `None`). -/
def parseDatetimeOpt : Option (List Char) → Option PyDateTime
  | none => none
  | some s => parseDatetimeStr s

/-! ## Cell cleaning and synthesized ids (parser.py:19-28, 65-74) -/

/-- `clean_str` : `None` to `""`, newlines to spaces, strip. -/
def cleanStr (v : Option (List Char)) : List Char :=
  match v with
  | none => []
  | some s => stripPy (replaceCh '\n' ' ' s)

/-- `clean_id` : `None` to `""`, drop newlines and spaces, strip. -/
def cleanId (v : Option (List Char)) : List Char :=
  match v with
  | none => []
  | some s => stripPy (deleteCh ' ' (deleteCh '\n' s))

/-- `_normalize_header_cell` : `clean_str`, then drop ASCII and ideographic
spaces. -/
def normalizeHeaderCell (v : Option (List Char)) : List Char :=
  let s := cleanStr v
  if s = [] then [] else deleteCh '　' (deleteCh ' ' s)

/-- Deterministic stand-in for `hashlib.sha1(·).hexdigest()`.  The claims
depend only on the digest being a deterministic function of the input with
a nonempty rendering, so the SHA-1 compression itself is replaced by a
simple mixing fold. -/
def digestHex (l : List Char) : List Char :=
  Nat.toDigits 16 (l.foldl (fun a c => (a * 131 + c.toNat) % 4294967296) 7)

/-- `_make_synthetic_id` : strip the parts, join with `'|'`, digest, and
mark with the fixed `synthetic_` stem. -/
def makeSyntheticId (parts : List (List Char)) : List Char :=
  "synthetic_".toList ++ digestHex (List.intercalate ['|'] (parts.map stripPy))

/-- One canonical transaction record (the dict built by the parser). -/
structure Transaction where
  transaction_id : List Char
  transaction_time : Option PyDateTime
  transaction_type : List Char
  category : List Char
  method : List Char
  amount : ℚ
  counterparty : List Char
  merchant_id : List Char
  deriving Repr, DecidableEq

/-- Two-digit rendering used by `str(datetime)`. -/
def pad2 (n : Nat) : List Char :=
  if n < 10 then '0' :: Nat.toDigits 10 n else Nat.toDigits 10 n

/-- `str(tx_time) if tx_time else ""` : ISO-like rendering of a datetime
(feeds only the synthetic-id digest). -/
def strOfOptTime : Option PyDateTime → List Char
  | none => []
  | some t =>
    Nat.toDigits 10 t.year ++ '-' :: pad2 t.month ++ '-' :: pad2 t.day ++
      ' ' :: pad2 t.hour ++ ':' :: pad2 t.minute ++ ':' :: pad2 t.second

/-- `str(amount)` : a rendering of the amount (feeds only the synthetic-id
digest; the exact float spelling is immaterial to every claim). -/
def strOfAmount (q : ℚ) : List Char :=
  (toString q).toList

/-! ## `_parse_wechat_text_block` (parser.py:118-198) -/

/-- `s[a:b]` for `0 ≤ a ≤ b`. -/
def slicePy (s : List Char) (a b : Nat) : List Char :=
  (s.take b).drop a

/-- `split(sep)[0]` : the segment before the first separator. -/
def splitFirst (sep : Char) (s : List Char) : List Char :=
  s.takeWhile (fun c => c ≠ sep)

/-- The text-block reconstructor: one transaction from a contiguous text
block, or `none` when the block lacks a date or a ≥16-digit id. -/
def parseWechatTextBlock (block : List Char) : Option Transaction :=
  if block = [] then none
  else
    let text := stripPy (collapseWs ' ' false block)
    if text = [] then none
    else
      match searchDate text with
      | none => none
      | some dm =>
        let mClock := searchClock text
        let txTime :=
          match mClock with
          | some cm => parseDatetimeStr (slicePy text dm.1 dm.2 ++ ' ' :: slicePy text cm.1 cm.2)
          | none => parseDatetimeStr (slicePy text dm.1 dm.2)
        let tid := pickBestNumericId text
        if tid = [] then none
        else
          let category0 :=
            if containsSub text ("收入".toList) then "收入".toList
            else if containsSub text ("支出".toList) then "支出".toList
            else "其他".toList
          let mAmt :=
            match searchAmt1 text with
            | some m => some m
            | none => searchAmt2 text
          let amountVal : Option ℚ :=
            match mAmt with
            | some m => some (parseAmountStr (slicePy text m.gStart m.gStop))
            | none => none
          let negAmt : Bool := match amountVal with | some v => decide (v < 0) | none => false
          let category :=
            if category0 = "其他".toList ∧ negAmt then "支出".toList
            else category0
          let amt0 : ℚ := match amountVal with | some v => v | none => 0
          let amt := if amt0 < 0 then |amt0| else amt0
          let method := match searchMethod text with | some kw => kw | none => []
          let start1 :=
            match mClock with
            | some cm => if cm.1 < dm.2 then cm.2 else dm.2
            | none => dm.2
          let positions :=
            ([findSubFrom text ("收入".toList) start1,
              findSubFrom text ("支出".toList) start1,
              findSubFrom text ("其他".toList) start1]).filterMap id
          let core0 :=
            match positions.min? with
            | some e => stripPy (slicePy text start1 e)
            | none => stripPy (text.drop start1)
          let core1 := stripPy (collapseWs ' ' false (subIdRuns core0))
          let txType := if core1 = [] then [] else stripPy (core1.takeWhile (fun c => c ≠ ' '))
          let cp :=
            match mAmt with
            | some m =>
              let tail0 := stripPy (text.drop m.stop)
              let tail1 := stripPy (splitFirst '/' tail0)
              stripPy (collapseWs ' ' false (subClock (subIdRuns tail1)))
            | none => []
          some ⟨tid, txTime, txType, category, method, amt, cp, []⟩

/-! ## `_parse_wechat_text_page` (parser.py:200-264) -/

/-- `re.search(r"\d+(?:\.\d{1,2})?\s*元", block)` as existence.  The source
pattern has no sign option; a sign is optional in `matchAmt2At`, so the two
patterns match at the same strings. -/
def hasYuanAmt (s : List Char) : Bool :=
  (searchAmt2 s).isSome

/-- The `needs_more` disjunction (parser.py:234-238). -/
def needsMoreInfo (block : List Char) : Bool :=
  pickBestNumericId block = [] || !(searchClock block).isSome ||
    (!hasAmtDec block && !containsSub block ['¥'] && !hasYuanAmt block)

/-- The completeness conjunction of the look-ahead loop (parser.py:248-252). -/
def blockComplete (block : List Char) : Bool :=
  pickBestNumericId block ≠ [] && (searchClock block).isSome &&
    (hasAmtDec block || containsSub block ['¥'] || hasYuanAmt block)

/-- `re.fullmatch` of the date pattern: it consumes the whole line. -/
def isFullDate (l : List Char) : Bool :=
  matchDateAt l = some []

/-- The pre-merge of a lone date line with an immediately following
clock-initial line (parser.py:205-218); the merged pair is consumed whole. -/
def mergeDateTimeLines : List (List Char) → List (List Char)
  | [] => []
  | [x] => [x]
  | cur :: nxt :: rest =>
    if isFullDate cur ∧ (matchClockBndAt nxt none).isSome then
      (cur ++ ' ' :: lstripPy nxt) :: mergeDateTimeLines rest
    else cur :: mergeDateTimeLines (nxt :: rest)

/-- The look-ahead of up to three extra lines (parser.py:240-253):
returns the extended block and the number of extra lines consumed. -/
def extendBlock : Nat → List Char → List (List Char) → List Char × Nat
  | 0, block, _ => (block, 0)
  | _ + 1, block, [] => (block, 0)
  | tries + 1, block, nxt :: rest =>
    if (searchDate nxt).isSome ∧ pickBestNumericId nxt ≠ [] then (block, 0)
    else
      let block' := block ++ ' ' :: nxt
      if blockComplete block' then (block', 1)
      else
        let bu := extendBlock tries block' rest
        (bu.1, bu.2 + 1)

/-- The per-page scan loop (parser.py:222-262), fuel-driven on the line
count (each step consumes at least one line). -/
def goPage : Nat → List (List Char) → List (List Char) → List Transaction
  | 0, _, _ => []
  | _ + 1, [], _ => []
  | fuel + 1, line :: rest, seen =>
    if pickBestNumericId line = [] then goPage fuel rest seen
    else if (searchDate line) = none then goPage fuel rest seen
    else
      let blockUsed :=
        if needsMoreInfo line then
          let bu := extendBlock 3 line rest
          (bu.1, 1 + bu.2)
        else (line, 1)
      let remaining := (line :: rest).drop blockUsed.2
      match parseWechatTextBlock blockUsed.1 with
      | some tx =>
        if tx.transaction_id ≠ [] ∧ tx.transaction_time ≠ none ∧ tx.transaction_id ∉ seen then
          tx :: goPage fuel remaining (tx.transaction_id :: seen)
        else goPage fuel remaining seen
      | none => goPage fuel remaining seen

/-- `_parse_wechat_text_page` : split, strip, drop empties, merge split
date/time lines, then scan (`None` and empty pages give `[]`). -/
def parseWechatTextPage (t : Option (List Char)) : List Transaction :=
  match t with
  | none => []
  | some text =>
    if text = [] then []
    else
      let lines := mergeDateTimeLines
        ((splitLinesPy text).filterMap
          (fun ln => if ln ≠ [] ∧ stripPy ln ≠ [] then some (stripPy ln) else none))
      goPage lines.length lines []

/-! ## PDF table processing and `parse_pdf_bill` (parser.py:266-537)

A page is the pair of what `pdfplumber` hands the parser: the extracted
text (`extract_text()`, possibly `None`) and the extracted tables
(the result of `_extract_tables_with_fallback`, whose geometry retries are
pdfplumber I/O and sit outside the embedding boundary).  Table cells are
`Option (List Char)` with `none` for `None` cells. -/

inductive BillType where
  | wechat | alipay
  deriving Repr, DecidableEq

structure PdfPage where
  text : Option (List Char)
  tables : List (List (List (Option (List Char))))
  deriving Repr, DecidableEq

/-- Header-row scan of one table (parser.py:401-415): first row whose
normalized concatenation carries the platform signature. -/
def headerScanAux : Nat → List (List (Option (List Char))) → Option (Nat × BillType)
  | _, [] => none
  | i, row :: rest =>
    let joined := (row.map normalizeHeaderCell).flatten
    if containsSub joined ("交易单号".toList) ∧ containsSub joined ("交易时间".toList) then
      some (i, .wechat)
    else if containsSub joined ("收/支".toList) ∧ containsSub joined ("交易订单号".toList) then
      some (i, .alipay)
    else headerScanAux (i + 1) rest

/-- `_guess_pdf_bill_type_from_table` (parser.py:266-284): content
heuristic over at most eight non-empty rows. -/
def guessBillTypeAux : Nat → List (List (Option (List Char))) → Option BillType
  | _, [] => none
  | checked, row :: rest =>
    if row = [] then guessBillTypeAux checked rest
    else
      let cleaned := row.filterMap (fun c => match c with | none => none | some v => some (cleanStr (some v)))
      let joined := stripPy (List.intercalate [' '] cleaned)
      if joined = [] then guessBillTypeAux checked rest
      else if 8 < checked + 1 then none
      else if containsSub joined ("支付宝".toList) ∨ containsSub joined ("交易订单号".toList) ∨
          containsSub joined ("收/支".toList) then some .alipay
      else if (searchDate joined).isSome ∧ pickBestNumericId joined ≠ [] then some .wechat
      else guessBillTypeAux (checked + 1) rest

def guessBillType (table : List (List (Option (List Char)))) : Option BillType :=
  guessBillTypeAux 0 table

/-- The emission guard `if transaction and transaction["transaction_id"]`
(parser.py:526): a freshly built dict is truthy, so only the id matters. -/
def emitTx (t : Transaction) : Option Transaction :=
  if t.transaction_id ≠ [] then some t else none

/-- One data row to a transaction (parser.py:432-527), including the
empty-row and summary-row filters and the final non-empty-id guard.  The
`try/except` around the mapping catches nothing in this embedding: every
index access is guarded by the same length tests as the source. -/
def rowToTx (bt : BillType) (row : List (Option (List Char))) : Option Transaction :=
  if row = [] ∨ row.all (fun cell => match cell with | none => true | some v => stripPy v = []) then
    none
  else
    let cleanedRow := row.map cleanStr
    let joinedRaw := stripPy (List.intercalate [' '] cleanedRow)
    let joinedCompact := deleteCh ' ' joinedRaw
    let joinedForId := List.intercalate ['|']
      ((cleanedRow.filter (fun c => c ≠ [])).map (fun c => cleanId (some c)))
    if joinedRaw = [] then none
    else if hasSummaryMark joinedCompact then none
    else
      match bt with
      | .wechat =>
        if cleanedRow.length < 7 then none
        else
          let tid0 := cleanId (some (cleanedRow.getD 0 []))
          let tid1 :=
            if tid0 = [] then
              match searchRun16 joinedForId with
              | some m => m
              | none => []
            else tid0
          let t0 := parseDatetimeOpt (some (cleanedRow.getD 1 []))
          let t1 :=
            match t0 with
            | some t => some t
            | none =>
              match searchDateTime joinedRaw with
              | some ab => parseDatetimeStr (slicePy joinedRaw ab.1 ab.2)
              | none => none
          let t2 :=
            match t1 with
            | some t => some t
            | none =>
              match searchDate joinedRaw with
              | some ab => parseDatetimeStr (slicePy joinedRaw ab.1 ab.2)
              | none => none
          let merchant := if 7 < cleanedRow.length then cleanId (some (cleanedRow.getD 7 [])) else []
          let amount := if 5 < cleanedRow.length then parseAmountStr (cleanedRow.getD 5 []) else 0
          let cp := if 6 < cleanedRow.length then cleanedRow.getD 6 [] else []
          let txType := if 2 < cleanedRow.length then cleanedRow.getD 2 [] else []
          let category := if 3 < cleanedRow.length then cleanedRow.getD 3 [] else []
          let method := if 4 < cleanedRow.length then cleanedRow.getD 4 [] else []
          let tid :=
            if tid1 = [] then
              makeSyntheticId [strOfOptTime t2, strOfAmount amount, cp, txType, category, method, merchant]
            else tid1
          emitTx ⟨tid, t2, txType, category, method, amount, cp, merchant⟩
      | .alipay =>
        if cleanedRow.length < 8 then none
        else
          let tid0 := cleanId (some (cleanedRow.getD 5 []))
          let tid1 :=
            if tid0 = [] then
              match searchRun16 joinedForId with
              | some m => m
              | none => []
            else tid0
          let tid := if tid1 = [] then makeSyntheticId [joinedCompact] else tid1
          emitTx ⟨tid, parseDatetimeOpt (some (cleanedRow.getD 7 [])), cleanedRow.getD 2 [],
            cleanedRow.getD 0 [], cleanedRow.getD 3 [], parseAmountStr (cleanedRow.getD 4 []),
            cleanedRow.getD 1 [], cleanId (some (cleanedRow.getD 6 []))⟩

/-- One table under the sticky document type (parser.py:396-431): header
match locks the type and starts after it; otherwise inherit, else guess;
an unclassifiable table contributes nothing. -/
def processTable (cur : Option BillType) (table : List (List (Option (List Char)))) :
    Option BillType × List Transaction :=
  match headerScanAux 0 table with
  | some ibt => (some ibt.2, (table.drop (ibt.1 + 1)).filterMap (rowToTx ibt.2))
  | none =>
    match cur with
    | some bt => (some bt, table.filterMap (rowToTx bt))
    | none =>
      match guessBillType table with
      | none => (none, [])
      | some g => (some g, table.filterMap (rowToTx g))

/-- All tables of one page, threading the sticky type. -/
def processTables (cur : Option BillType) :
    List (List (List (Option (List Char)))) → Option BillType × List Transaction
  | [] => (cur, [])
  | t :: ts =>
    let r1 := processTable cur t
    let r2 := processTables r1.1 ts
    (r2.1, r1.2 ++ r2.2)

/-- The page loop of the table route (parser.py:387-535): pages without
tables, and pages whose tables contributed nothing, fall back to the text
reconstructor. -/
def processPdfPages (cur : Option BillType) : List PdfPage → List Transaction
  | [] => []
  | p :: ps =>
    if p.tables = [] then
      parseWechatTextPage p.text ++ processPdfPages cur ps
    else
      let r := processTables cur p.tables
      (if r.2 = [] then parseWechatTextPage p.text else r.2) ++ processPdfPages r.1 ps

/-- The WeChat-certificate route (parser.py:371-385): text reconstruction
of every page with cross-page id dedup. -/
def wechatRouteFilter : List Transaction → List (List Char) → List Transaction × List (List Char)
  | [], seen => ([], seen)
  | tx :: rest, seen =>
    if tx.transaction_id = [] ∨ tx.transaction_id ∈ seen then wechatRouteFilter rest seen
    else
      let r := wechatRouteFilter rest (tx.transaction_id :: seen)
      (tx :: r.1, r.2)

def wechatRouteAux : List PdfPage → List (List Char) → List Transaction
  | [], _ => []
  | p :: ps, seen =>
    let r := wechatRouteFilter (parseWechatTextPage p.text) seen
    r.1 ++ wechatRouteAux ps r.2

inductive BillError where
  | scannedPdf
  | imageFormat
  | unknownExt (ext : List Char)
  deriving Repr, DecidableEq

/-- The fixed user-facing message of each rejection (parser.py:15, 17, 366). -/
def billErrorMsg : BillError → List Char
  | .scannedPdf => "检测到扫描件或纯图片 PDF，系统无法提取文本。请使用 OCR 工具转换为可编辑 PDF 或 Excel 后再上传。".toList
  | .imageFormat => "不支持纯图片格式的账单。系统无法识别图片内容，请上传 PDF 或 Excel 电子账单。".toList
  | .unknownExt ext => "不支持的文件格式: ".toList ++ ext

/-- `parse_pdf_bill` (parser.py:358-537): scanned-document check on the
first page, certificate route, else the sticky table route. -/
def parsePdfBill (pages : List PdfPage) : Except BillError (List Transaction) :=
  match pages with
  | [] => .ok []
  | p0 :: _ =>
    let firstText := p0.text.getD []
    if (stripPy firstText).length < 10 then .error .scannedPdf
    else
      if containsSub firstText ("微信支付交易明细证明".toList) ∨
          (containsSub firstText ("交易单号".toList) ∧ containsSub firstText ("交易时间".toList)) then
        .ok (wechatRouteAux pages [])
      else
        .ok (processPdfPages none pages)

/-! ## `parse_excel_bill` (parser.py:539-654)

A sheet is its rows as read with `header=None`; a cell is
`Option (List Char)` with `none` for missing values (`NaN`; the sheets at
issue hold text cells, so the `str(nan) = "nan"` spelling of float-NaN
cells in cosmetic fields is collapsed into the `None` path). -/

/-- Header-row classification (parser.py:553-574), checks in source order. -/
def excelHeaderType (row : List (Option (List Char))) : Option BillType :=
  let rowValues := row.filterMap (fun c => c.map stripPy)
  let rowStr := deleteCh '\n' (List.intercalate [' '] rowValues)
  if "收/支".toList ∈ rowValues ∧ "交易订单号".toList ∈ rowValues then some .alipay
  else if "交易时间".toList ∈ rowValues ∧ "交易类型".toList ∈ rowValues ∧
      ("金额(元)".toList ∈ rowValues ∨ "金额".toList ∈ rowValues) then some .wechat
  else if containsSub rowStr ("收/支".toList) ∧ containsSub rowStr ("交易订单号".toList) then
    some .alipay
  else none

def findHeaderRow : Nat → List (List (Option (List Char))) → Option (Nat × BillType)
  | _, [] => none
  | i, r :: rest =>
    match excelHeaderType r with
    | some bt => some (i, bt)
    | none => findHeaderRow (i + 1) rest

/-- `df.iloc[header_index].astype(str).str.replace('\n','').str.strip()` :
column names from the header row (`NaN` renders as `"nan"`). -/
def excelHeaders (row : List (Option (List Char))) : List (List Char) :=
  row.map (fun c =>
    match c with
    | none => "nan".toList
    | some v => stripPy (deleteCh '\n' v))

/-- `row.get(col)` : the cell under the first column of that name, `none`
both for a missing column and a missing value. -/
def getCol (headers : List (List Char)) (row : List (Option (List Char)))
    (col : List Char) : Option (List Char) :=
  (headers.indexOf? col).bind (fun i => row.getD i none)

/-- One Excel data row (parser.py:588-652). -/
def excelRowToTx (bt : BillType) (headers : List (List Char))
    (row : List (Option (List Char))) : Option Transaction :=
  match bt with
  | .alipay =>
    if getCol headers row ("交易订单号".toList) = none ∨ getCol headers row ("交易时间".toList) = none then
      none
    else
      let tid := cleanId (getCol headers row ("交易订单号".toList))
      if tid = [] ∨ ¬ isDigitCh (tid.headD 'x') then none
      else
        some ⟨tid, parseDatetimeOpt (getCol headers row ("交易时间".toList)),
          cleanStr (getCol headers row ("商品说明".toList)),
          cleanStr (getCol headers row ("收/支".toList)),
          cleanStr (getCol headers row ("收/付款方式".toList)),
          parseAmountOpt (getCol headers row ("金额".toList)),
          cleanStr (getCol headers row ("交易对方".toList)),
          cleanId (getCol headers row ("商家订单号".toList))⟩
  | .wechat =>
    let amountCol := if "金额(元)".toList ∈ headers then "金额(元)".toList else "金额".toList
    if getCol headers row ("交易单号".toList) = none ∨ getCol headers row ("交易时间".toList) = none then
      none
    else
      let tid := cleanId (getCol headers row ("交易单号".toList))
      if (tid = [] ∨ ¬ isDigitCh (tid.headD 'x')) ∧ tid.length < 5 then none
      else
        let category0 := cleanStr (getCol headers row ("收/支".toList))
        let category := if category0 = "/".toList then "其他".toList else category0
        some ⟨tid, parseDatetimeOpt (getCol headers row ("交易时间".toList)),
          cleanStr (getCol headers row ("交易类型".toList)),
          category,
          cleanStr (getCol headers row ("支付方式".toList)),
          parseAmountOpt (getCol headers row amountCol),
          cleanStr (getCol headers row ("交易对方".toList)),
          cleanId (getCol headers row ("商户单号".toList))⟩

/-- `parse_excel_bill` over the rows as read (a read failure or a missing
header row yields `[]`). -/
def parseExcelBill (rows : List (List (Option (List Char)))) : List Transaction :=
  match findHeaderRow 0 rows with
  | none => []
  | some ibt =>
    let headers := excelHeaders (rows.getD ibt.1 [])
    (rows.drop (ibt.1 + 1)).filterMap (excelRowToTx ibt.2 headers)

/-! ## `parse_bill_file` dispatch (parser.py:8-17) -/

/-- Scanning core of `rfindCh`. -/
def rfindChAux : List Char → Char → Nat → Option Nat → Option Nat
  | [], _, _, best => best
  | x :: rest, c, i, best =>
    rfindChAux rest c (i + 1) (if x = c then some i else best)

/-- Index of the last occurrence of a character. -/
def rfindCh (p : List Char) (c : Char) : Option Nat :=
  rfindChAux p c 0 none

/-- `os.path.splitext(p)[1]` per the CPython algorithm: the suffix from
the last dot, provided the dot follows the last separator and some
non-dot character stands between them. -/
def splitExtPy (p : List Char) : List Char :=
  let sepIdx : Int := match rfindCh p '/' with | some i => (i : Int) | none => -1
  let dotIdx : Int := match rfindCh p '.' with | some i => (i : Int) | none => -1
  if sepIdx < dotIdx then
    let mid := slicePy p (sepIdx + 1).toNat dotIdx.toNat
    if mid.any (fun c => c ≠ '.') then p.drop dotIdx.toNat else []
  else []

/-- What a file's bytes look like to each reader; the dispatch picks one. -/
structure FileContent where
  pdfPages : List PdfPage
  excelRows : List (List (Option (List Char)))
  deriving Repr, DecidableEq

def imageExts : List (List Char) :=
  [".jpg".toList, ".jpeg".toList, ".png".toList, ".bmp".toList, ".gif".toList]

/-- `parse_bill_file` : dispatch strictly on the lower-cased extension. -/
def parseBillFile (path : List Char) (content : FileContent) :
    Except BillError (List Transaction) :=
  let ext := toLowerAscii (splitExtPy path)
  if ext = ".pdf".toList then parsePdfBill content.pdfPages
  else if ext = ".xlsx".toList ∨ ext = ".xls".toList then .ok (parseExcelBill content.excelRows)
  else if ext ∈ imageExts then .error .imageFormat
  else .error (.unknownExt ext)

/-! ## Filesystem paths (main.py zip extraction and retention sweep)

An absolute path is its list of components; `renderP` is the string the
OS-level comparisons in the source operate on (`os.path.abspath` output:
a leading slash, components joined by single slashes, no trailing slash).
Normalized components are nonempty and slash-free. -/

/-- `"/".join` of components. -/
def joinSepP : List (List Char) → List Char
  | [] => []
  | [c] => c
  | c :: c2 :: cs => c ++ '/' :: joinSepP (c2 :: cs)

/-- The rendered absolute path string. -/
def renderP (p : List (List Char)) : List Char :=
  '/' :: joinSepP p

/-- `os.path.normpath` on a component stream rooted at `/`: drop empty and
`.` segments, resolve `..` against the accumulated prefix (never above the
root). -/
def normSegs (segs : List (List Char)) : List (List Char) :=
  segs.foldl
    (fun acc c =>
      if c = [] ∨ c = ['.'] then acc
      else if c = ['.', '.'] then acc.dropLast
      else acc ++ [c]) []

/-- A zip member filename, split at slashes (`isAbs` when it begins with a
slash, in which case `os.path.join` discards the destination). -/
structure ZipEntry where
  isAbs : Bool
  segs : List (List Char)
  deriving Repr, DecidableEq

/-- `os.path.abspath(os.path.join(dest_dir, member.filename))` for a
normalized absolute `dest`. -/
def resolveEntry (dest : List (List Char)) (e : ZipEntry) : List (List Char) :=
  if e.isAbs then normSegs e.segs else normSegs (dest ++ e.segs)

/-- The containment test of `_safe_extract_zip` (main.py:1140):
`target_path.startswith(os.path.abspath(dest_dir) + os.sep)`. -/
def checkMember (dest : List (List Char)) (e : ZipEntry) : Bool :=
  (renderP dest ++ ['/']).isPrefixOf (renderP (resolveEntry dest e))

/-- The validation loop of `_safe_extract_zip` (main.py:1138-1141): raise
on the first violating member, before anything is written. -/
def checkMembers (dest : List (List Char)) : List ZipEntry → Except Unit Unit
  | [] => .ok ()
  | e :: rest => if checkMember dest e then checkMembers dest rest else .error ()

/-- Where `ZipFile.extractall` writes one member: CPython's
`_extract_member` joins the name under the destination after dropping
empty, `.` and `..` parts. -/
def extractTarget (dest : List (List Char)) (e : ZipEntry) : List (List Char) :=
  dest ++ e.segs.filter (fun c => c ≠ [] ∧ c ≠ ['.'] ∧ c ≠ ['.', '.'])

/-- `_safe_extract_zip` (main.py:1136-1142): validate every member, then
extract all of them; a violation rejects the whole archive with no file
written. -/
def safeExtractZip (entries : List ZipEntry) (dest : List (List Char)) :
    Except Unit (List (List (List Char))) :=
  match checkMembers dest entries with
  | .error _ => .error ()
  | .ok _ => .ok (entries.map (extractTarget dest))

/-! ### The string containment test versus component containment -/

/-- The claim-side notion: `target` lies strictly below `dest` as a
component path. -/
def containedIn (dest target : List (List Char)) : Prop :=
  dest.isPrefixOf target = true ∧ dest ≠ target

instance (dest target : List (List Char)) : Decidable (containedIn dest target) := by
  unfold containedIn
  infer_instance

/-- A normalized path component: nonempty and slash-free. -/
def validComp (c : List Char) : Prop :=
  c ≠ [] ∧ '/' ∉ c

/-- A normalized absolute directory path: nonempty with valid components
(the filesystem root `/` itself never serves as an extraction or reports
directory in the source). -/
def validPath (p : List (List Char)) : Prop :=
  p ≠ [] ∧ ∀ c ∈ p, validComp c

instance (c : List Char) : Decidable (validComp c) := by
  unfold validComp
  infer_instance

instance (p : List (List Char)) : Decidable (validPath p) := by
  unfold validPath
  have : ∀ c : List Char, Decidable (validComp c) := inferInstance
  infer_instance

/-! ## Retention sweeper `_cleanup_stale_reports` (main.py:287-328) -/

/-- `_is_within_reports_dir` (main.py:1272-1277):
`os.path.abspath(path).startswith(REPORTS_DIR + os.sep)`. -/
def isWithinB (rd p : List (List Char)) : Bool :=
  (renderP rd ++ ['/']).isPrefixOf (renderP p)

/-- `_get_report_container_dir` (main.py:1259-1270): the per-subject /
per-version directory, i.e. the first two components below the reports
directory; the path itself when it sits at most one level deep or outside. -/
def containerDir (rd p : List (List Char)) : List (List Char) :=
  if isWithinB rd p then
    let rel := p.drop rd.length
    if 2 ≤ rel.length then rd ++ rel.take 2 else p
  else p

/-- First pass of the sweep (main.py:290-313), in log order: entries
outside the reports tree or missing on disk are dropped from the log;
a parse failure of the timestamp counts as `now`; stale entries join the
delete list, fresh ones are kept.  Log keys are the absolute paths that
`_update_report_access` wrote, so `os.path.abspath` is the identity here;
timestamps are integers (only the order against the cutoff matters). -/
def sweepPass1 (rd : List (List Char)) (now cutoff : Int) (disk : List (List Char) → Bool) :
    List (List (List Char) × Option Int) →
      List (List (List Char) × Option Int) × List (List (List Char))
  | [] => ([], [])
  | (p, ts) :: rest =>
    let r := sweepPass1 rd now cutoff disk rest
    if ¬ isWithinB rd p then r
    else if ¬ disk p then r
    else if ts.getD now < cutoff then (r.1, p :: r.2)
    else ((p, ts) :: r.1, r.2)

/-- Second pass (main.py:315-324): container directories of the stale
roots, deduplicated, still guarded by the reports-tree test. -/
def sweepTargets (rd : List (List Char)) :
    List (List (List Char)) → List (List (List Char)) → List (List (List Char))
  | [], _ => []
  | p :: rest, seen =>
    if ¬ isWithinB rd p then sweepTargets rd rest seen
    else
      let target := containerDir rd p
      if target ∈ seen then sweepTargets rd rest seen
      else target :: sweepTargets rd rest (target :: seen)

/-- `_cleanup_stale_reports` : the rewritten log and the list of directory
trees passed to `_delete_tree` (main.py:326-328 re-checks the tree guard
on each target).  `maxAge` is `timedelta(days=max_age_days)` in the same
unit as `now`. -/
def cleanupStaleReports (rd : List (List Char)) (now maxAge : Int)
    (disk : List (List Char) → Bool) (log : List (List (List Char) × Option Int)) :
    List (List (List Char) × Option Int) × List (List (List Char)) :=
  let r1 := sweepPass1 rd now (now - maxAge) disk log
  (r1.1, (sweepTargets rd r1.2 []).filter (isWithinB rd))

/-! ## `_insert_transactions_for_suspect` (main.py:115-148)

The persisted state of one suspect is the list of transaction ids already
in the `transactions` table (rows are append-only here; the id query and
the membership filter only ever consult membership).  A batch item is the
id the source would read off it: `none` for a non-dict item or an item
without the key, and the raw string otherwise. -/

/-- `item.get("transaction_id")` filtered through Python truthiness
(`None` and `""` are falsy), as `str`. -/
def truthyId : Option (List Char) → Option (List Char)
  | none => none
  | some s => if s = [] then none else some s

/-- Fuel-driven core of `chunkList`. -/
def chunkListF {α : Type} (size : Nat) : Nat → List α → List (List α)
  | 0, _ => []
  | _ + 1, [] => []
  | fuel + 1, l => l.take size :: chunkListF size fuel (l.drop size)

/-- `_chunk_list` (main.py:109-113): slices of `size` (≥ 1) items. -/
def chunkList {α : Type} (l : List α) (size : Nat) : List (List α) :=
  chunkListF (if size = 0 then 1 else size) l.length l

/-- The `existing` id set (main.py:124-132): for each 900-chunk of the
deduplicated batch ids, the ids already persisted for the suspect. -/
def existingIds (persisted : List (List Char)) (uniqueIds : List (List Char)) :
    List (List Char) :=
  (chunkList uniqueIds 900).foldl
    (fun acc chunk => acc ++ chunk.filter (fun tid => tid ∈ persisted)) []

/-- The `to_insert` membership test (main.py:134-143): keep an item when
it has a truthy id not in `existing`. -/
def insertSelect (existing : List (List Char)) (item : Option (List Char)) :
    Option (List Char) :=
  match truthyId item with
  | none => none
  | some tid => if tid ∈ existing then none else some tid

/-- `_insert_transactions_for_suspect` : returns the persisted ids after
the commit and the value `len(to_insert)` the source returns.
`dict.fromkeys` dedups preserving first occurrences; only membership in
`unique_ids` matters downstream, so `List.dedup` serves. -/
def insertTransactionsForSuspect (persisted : List (List Char))
    (data : List (Option (List Char))) : List (List Char) × Nat :=
  let txIds := data.filterMap truthyId
  let uniqueIds := txIds.dedup
  let existing := existingIds persisted uniqueIds
  let toInsert := data.filterMap (insertSelect existing)
  (persisted ++ toInsert, toInsert.length)

/-! ## The upload job pipeline and its audit writes (main.py:62-246, 1279-1340) -/

/-- One entry of a bill job's `results` array (main.py:194-207): either
the per-file summary or the captured per-file error. -/
inductive FileResult where
  | ok (filename : String) (parsedCount insertedCount : Nat)
  | err (filename : String) (detail : String)
  deriving Repr, DecidableEq

/-- The job record held in the registry (a Python dict; bill jobs use
`results`/`output_file`, report jobs use `filename`). -/
structure JobRecord where
  status : String
  detail : Option String
  results : List FileResult
  filename : Option String
  outputFile : Option String
  deriving Repr, DecidableEq

/-- One audit-file write: `_write_json_atomic` (main.py:62-67) writes
`path + ".tmp"` and `os.replace`s it onto `path` with the serialized
record. -/
structure AuditWrite where
  tmpPath : String
  path : String
  payload : JobRecord
  deriving Repr, DecidableEq

def writeJsonAtomic (path : String) (payload : JobRecord) : AuditWrite :=
  ⟨path ++ ".tmp", path, payload⟩

/-- `re.sub(r"[^a-zA-Z0-9_-]", "_", job_id)`. -/
def sanitizeJobId (s : String) : String :=
  String.mk (s.toList.map (fun c => if c.isAlphanum || c = '_' || c = '-' then c else '_'))

/-- `re.sub(r"[^0-9]", "", str(suspect_id or "0")) or "0"` for an integer
suspect id (`0` is falsy in Python). -/
def sanitizeSuspectId (n : Nat) : String :=
  if n = 0 then "0" else toString n

/-- `_write_bill_job_result` (main.py:69-75): the dedicated audit file of
one bill job, under the fixed-stem name. -/
def writeBillJobResult (jobId : String) (suspectId : Nat) (job : JobRecord) : AuditWrite :=
  writeJsonAtomic
    ("bill_upload_result_" ++ sanitizeSuspectId suspectId ++ "_" ++ sanitizeJobId jobId ++ ".json")
    job

/-- `_process_bill_upload_job` (main.py:150-246) projected onto its
terminal record and its audit writes.  `fault` is the message of an
exception escaping to the outer handler (e.g. the session constructor);
the per-file loop itself cannot throw — every file body sits in its own
`try/except`, so `files` lists the per-file outcomes directly.  On the
`done` path the record (status already `done`, full results) is flushed
and the filename is patched back; the outer handler flushes the `error`
record the same way; the missing-suspect `return` path flushes nothing. -/
def processBillUploadJob (jobId : String) (suspectId : Nat) (fault : Option String)
    (suspectExists : Bool) (files : List FileResult) : JobRecord × List AuditWrite :=
  match fault with
  | some msg =>
    let st : JobRecord := ⟨"error", some msg, [], none, none⟩
    let w := writeBillJobResult jobId suspectId st
    ({ st with outputFile := some w.path }, [w])
  | none =>
    if ¬ suspectExists then
      (⟨"error", some "Suspect not found", [], none, none⟩, [])
    else
      let st : JobRecord := ⟨"done", none, files, none, none⟩
      let w := writeBillJobResult jobId suspectId st
      ({ st with outputFile := some w.path }, [w])

/-- The outcome of one report-archive job after admission: extraction,
root detection and main-file detection either succeed with the main
relative path, or raise (`HTTPException` or any other exception). -/
inductive ReportOutcome where
  | success (mainRel : String)
  | httpErr (detail : String)
  | exc (detail : String)
  deriving Repr, DecidableEq

/-- `_process_report_upload_job` (main.py:1279-1340) projected onto its
terminal record and its audit writes: the source sets the in-memory
registry record on `done` and on both `error` paths and deletes the work
tree on errors, but contains no audit-file write on any path. -/
def processReportUploadJob (suspectExists : Bool) (outcome : ReportOutcome) :
    JobRecord × List AuditWrite :=
  if ¬ suspectExists then
    (⟨"error", some "Suspect not found", [], none, none⟩, [])
  else
    match outcome with
    | .success rel => (⟨"done", none, [], some rel, none⟩, [])
    | .httpErr d => (⟨"error", some d, [], none, none⟩, [])
    | .exc d => (⟨"error", some d, [], none, none⟩, [])

/-! ## Concrete scenarios for the closed witness and counterexample
statements -/

/-- Header row of a WeChat PDF table (parser.py:406). -/
def wxHdrRow : List (Option (List Char)) :=
  [some "交易单号".toList, some "交易时间".toList, some "交易类型".toList,
   some "收/支".toList, some "支付方式".toList, some "金额(元)".toList,
   some "交易对方".toList, some "商户单号".toList]

/-- A WeChat data row whose amount cell is negative. -/
def wxNegRow : List (Option (List Char)) :=
  [some "1000050001202106010001".toList, some "2021-06-01 10:00:00".toList,
   some "转账".toList, some "支出".toList, some "零钱".toList, some "-5.00".toList,
   some "张三".toList, some "M001".toList]

/-- One PDF page holding that table; the page text is long enough to pass
the scanned-document check and matches neither text-route signature. -/
def wxNegPage : PdfPage :=
  { text := some "普通银行账单文件一份".toList, tables := [[wxHdrRow, wxNegRow]] }

/-- The transaction the table route emits for `wxNegRow`. -/
def wxNegTx : Transaction :=
  { transaction_id := "1000050001202106010001".toList
    transaction_time := some ⟨2021, 6, 1, 10, 0, 0⟩
    transaction_type := "转账".toList
    category := "支出".toList
    method := "零钱".toList
    amount := -5
    counterparty := "张三".toList
    merchant_id := "M001".toList }

/-- A reconstructable one-line WeChat text block. -/
def wxBlock : List Char :=
  "2021-06-01 12:00 支出 ¥3.50 某人 1234567890123456".toList

/-- The transaction the reconstructor yields for `wxBlock` (the clock match
doubling as the type line is the source's own behaviour). -/
def wxBlockTx : Transaction :=
  { transaction_id := "1234567890123456".toList
    transaction_time := some ⟨2021, 6, 1, 12, 0, 0⟩
    transaction_type := "12:00".toList
    category := "支出".toList
    method := []
    amount := (7 : ℚ) / 2
    counterparty := "某人".toList
    merchant_id := [] }

/-- A block holding two 16-digit runs of equal maximal length. -/
def wxTieBlock : List Char :=
  "2021-06-01 12:00 ¥1.00 9999999999999999 0000000000000000".toList

/-- The transaction the reconstructor yields for `wxTieBlock`. -/
def wxTieTx : Transaction :=
  { transaction_id := "0000000000000000".toList
    transaction_time := some ⟨2021, 6, 1, 12, 0, 0⟩
    transaction_type := "12:00".toList
    category := "其他".toList
    method := []
    amount := 1
    counterparty := []
    merchant_id := [] }

/-- An access log with one stale tracked root and one fresh one. -/
def sweepLogA : List (List (List Char) × Option Int) :=
  [([['r'], ['1'], ['v'], ['x']], some 10), ([['r'], ['2'], ['w']], some 95)]

/-- An access log holding a root outside the reports directory next to a
stale tracked root. -/
def sweepLogB : List (List (List Char) × Option Int) :=
  [([['o'], ['x']], some 5), ([['r'], ['1'], ['v'], ['z']], some 10)]

/-- An access log with a single fresh tracked root. -/
def sweepLogC : List (List (List Char) × Option Int) :=
  [([['r'], ['1'], ['v']], some 99)]

/-! ## Theorems -/

/-! ### Lemmas: digit runs are invariant under the whitespace rewrites -/

theorem not_digit_of_ws {c : Char} (h : isWsPy c = true) : isDigitCh c = false := by
  simp only [isWsPy, Bool.or_eq_true, decide_eq_true_eq] at h
  rcases h with ((((h | h) | h) | h) | h) | h <;> subst h <;> decide

theorem runsAux_all_not_digit {w : List Char} (hw : ∀ c ∈ w, isDigitCh c = false)
    (acc : List Char) : runsAux w acc = emitAcc acc := by
  induction w generalizing acc with
  | nil => rfl
  | cons c rest ih =>
    have hc : isDigitCh c = false := hw c (by simp)
    have hrest : ∀ x ∈ rest, isDigitCh x = false := fun x hx => hw x (by simp [hx])
    simp only [runsAux, hc, Bool.false_eq_true, if_false]
    rw [ih hrest]
    simp [emitAcc]

theorem runsAux_collapseWs {r : Char} (hr : isDigitCh r = false) :
    ∀ s : List Char,
      (∀ acc, runsAux (collapseWs r false s) acc = runsAux s acc) ∧
      runsAux (collapseWs r true s) [] = runsAux s [] := by
  intro s
  induction s with
  | nil => exact ⟨fun acc => rfl, rfl⟩
  | cons c rest ih =>
    by_cases hws : isWsPy c = true
    · have hcd : isDigitCh c = false := not_digit_of_ws hws
      constructor
      · intro acc
        simp only [collapseWs, if_pos hws, runsAux, hr, hcd, Bool.false_eq_true, if_false]
        rw [ih.2]
      · simp only [collapseWs, if_pos hws, runsAux, hcd, Bool.false_eq_true, if_false]
        rw [ih.2]
        simp [emitAcc]
    · have hws' : isWsPy c = false := by simpa using hws
      by_cases hcd : isDigitCh c = true
      · constructor
        · intro acc
          simp only [collapseWs, hws', Bool.false_eq_true, if_false, runsAux, hcd, if_true]
          rw [ih.1]
        · simp only [collapseWs, hws', Bool.false_eq_true, if_false, runsAux, hcd, if_true]
          rw [ih.1]
      · have hcd' : isDigitCh c = false := by simpa using hcd
        constructor
        · intro acc
          simp only [collapseWs, hws', Bool.false_eq_true, if_false, runsAux, hcd']
          rw [ih.1]
        · simp only [collapseWs, hws', Bool.false_eq_true, if_false, runsAux, hcd']
          rw [ih.1]

theorem digitRuns_collapseWs {r : Char} (hr : isDigitCh r = false) (s : List Char) :
    digitRuns (collapseWs r false s) = digitRuns s :=
  (runsAux_collapseWs hr s).1 []

theorem runsAux_append_not_digit {w : List Char} (hw : ∀ c ∈ w, isDigitCh c = false) :
    ∀ (l : List Char) (acc : List Char), runsAux (l ++ w) acc = runsAux l acc := by
  intro l
  induction l with
  | nil =>
    intro acc
    simpa [runsAux] using runsAux_all_not_digit hw acc
  | cons c rest ih =>
    intro acc
    by_cases hcd : isDigitCh c = true
    · simp only [List.cons_append, runsAux, hcd, if_true]
      exact ih _
    · have hcd' : isDigitCh c = false := by simpa using hcd
      simp only [List.cons_append, runsAux, hcd', Bool.false_eq_true, if_false, List.append_eq]
      rw [ih]

theorem runsAux_dropWhile_ws (s : List Char) :
    runsAux (s.dropWhile isWsPy) [] = runsAux s [] := by
  induction s with
  | nil => rfl
  | cons c rest ih =>
    by_cases hws : isWsPy c = true
    · have hcd : isDigitCh c = false := not_digit_of_ws hws
      rw [List.dropWhile_cons]
      simp only [hws, if_true]
      rw [ih]
      simp [runsAux, hcd, emitAcc]
    · rw [List.dropWhile_cons]
      simp [hws]

theorem mem_takeWhile_sat {p : Char → Bool} :
    ∀ {l : List Char} {x : Char}, x ∈ l.takeWhile p → p x = true := by
  intro l
  induction l with
  | nil => intro x hx; simp at hx
  | cons c rest ih =>
    intro x hx
    rw [List.takeWhile_cons] at hx
    by_cases hc : p c = true
    · simp only [hc, if_true] at hx
      rcases List.mem_cons.mp hx with h | h
      · subst h; exact hc
      · exact ih h
    · simp only [hc] at hx
      simp at hx

theorem digitRuns_stripPy (s : List Char) : digitRuns (stripPy s) = digitRuns s := by
  unfold stripPy digitRuns
  set t := s.dropWhile isWsPy with ht
  have hdecomp : t = (t.reverse.dropWhile isWsPy).reverse ++
      (t.reverse.takeWhile isWsPy).reverse := by
    have h1 : t.reverse.takeWhile isWsPy ++ t.reverse.dropWhile isWsPy = t.reverse :=
      List.takeWhile_append_dropWhile _ _
    calc t = t.reverse.reverse := by rw [List.reverse_reverse]
    _ = (t.reverse.takeWhile isWsPy ++ t.reverse.dropWhile isWsPy).reverse := by rw [h1]
    _ = (t.reverse.dropWhile isWsPy).reverse ++ (t.reverse.takeWhile isWsPy).reverse := by
        rw [List.reverse_append]
  have hwsuffix : ∀ c ∈ (t.reverse.takeWhile isWsPy).reverse, isDigitCh c = false := by
    intro c hc
    exact not_digit_of_ws (mem_takeWhile_sat (List.mem_reverse.mp hc))
  have h2 : runsAux t [] = runsAux ((t.reverse.dropWhile isWsPy).reverse) [] := by
    conv_lhs => rw [hdecomp]
    exact runsAux_append_not_digit hwsuffix _ []
  rw [← h2, ht, runsAux_dropWhile_ws]

/-! ### Lemmas: the fold selection returns the key-minimal candidate -/

theorem lexLtCh_irrefl : ∀ a : List Char, lexLtCh a a = false := by
  intro a
  induction a with
  | nil => rfl
  | cons c rest ih => simp [lexLtCh, ih]

theorem lexLtCh_trans :
    ∀ {a b c : List Char}, lexLtCh a b = true → lexLtCh b c = true → lexLtCh a c = true := by
  intro a
  induction a with
  | nil =>
    intro b c hab hbc
    cases b with
    | nil => simp [lexLtCh] at hab
    | cons bh bt =>
      cases c with
      | nil => simp [lexLtCh] at hbc
      | cons ch ct => simp [lexLtCh]
  | cons ah at' ih =>
    intro b c hab hbc
    cases b with
    | nil => simp [lexLtCh] at hab
    | cons bh bt =>
      cases c with
      | nil => simp [lexLtCh] at hbc
      | cons ch ct =>
        simp only [lexLtCh, Bool.or_eq_true, Bool.and_eq_true, decide_eq_true_eq] at hab hbc ⊢
        rcases hab with h1 | ⟨he1, h1⟩
        · rcases hbc with h2 | ⟨he2, _⟩
          · exact Or.inl (lt_trans h1 h2)
          · exact Or.inl (he2 ▸ h1)
        · rcases hbc with h2 | ⟨he2, h2⟩
          · exact Or.inl (he1 ▸ h2)
          · exact Or.inr ⟨he1.trans he2, ih h1 h2⟩

theorem lexLtCh_connex :
    ∀ {a b : List Char}, lexLtCh a b = false → a = b ∨ lexLtCh b a = true := by
  intro a
  induction a with
  | nil =>
    intro b hab
    cases b with
    | nil => exact Or.inl rfl
    | cons bh bt => simp [lexLtCh] at hab
  | cons ah at' ih =>
    intro b hab
    cases b with
    | nil => exact Or.inr rfl
    | cons bh bt =>
      rcases lt_trichotomy ah bh with h | h | h
      · simp [lexLtCh, h] at hab
      · subst h
        have hab' : lexLtCh at' bt = false := by
          simpa [lexLtCh] using hab
        rcases ih hab' with h'' | h''
        · exact Or.inl (by rw [h''])
        · exact Or.inr (by simp [lexLtCh, h''])
      · exact Or.inr (by simp [lexLtCh, h])

theorem keyLt_irrefl (a : List Char) : keyLt a a = false := by
  simp [keyLt, lexLtCh_irrefl]

theorem keyLt_trans {a b c : List Char} (hab : keyLt a b = true) (hbc : keyLt b c = true) :
    keyLt a c = true := by
  simp only [keyLt, Bool.or_eq_true, Bool.and_eq_true, decide_eq_true_eq] at hab hbc ⊢
  rcases hab with h1 | ⟨he1, h1⟩
  · rcases hbc with h2 | ⟨he2, _⟩
    · exact Or.inl (lt_trans h2 h1)
    · exact Or.inl (he2 ▸ h1)
  · rcases hbc with h2 | ⟨he2, h2⟩
    · exact Or.inl (he1 ▸ h2)
    · exact Or.inr ⟨he1.trans he2, lexLtCh_trans h1 h2⟩

theorem keyLt_connex {a b : List Char} (h : keyLt a b = false) :
    a = b ∨ keyLt b a = true := by
  rcases lt_trichotomy a.length b.length with hl | hl | hl
  · exact Or.inr (by simp [keyLt, hl])
  · have h' : lexLtCh a b = false := by
      simpa [keyLt, hl, lt_irrefl] using h
    rcases lexLtCh_connex h' with h'' | h''
    · exact Or.inl h''
    · exact Or.inr (by simp [keyLt, hl, h''])
  · simp [keyLt, hl] at h

theorem selectBest_mem (c : List Char) (cs : List (List Char)) :
    selectBest c cs ∈ c :: cs := by
  induction cs generalizing c with
  | nil => simp [selectBest]
  | cons x xs ih =>
    simp only [selectBest, List.foldl_cons]
    by_cases h : keyLt x c = true
    · simp only [h, if_true]
      have := ih x
      simp only [selectBest] at this
      rcases List.mem_cons.mp this with h' | h'
      · exact List.mem_cons.mpr (Or.inr (List.mem_cons.mpr (Or.inl h')))
      · exact List.mem_cons.mpr (Or.inr (List.mem_cons.mpr (Or.inr h')))
    · have heq : (if keyLt x c then x else c) = c := by simp [h]
      rw [heq]
      have := ih c
      simp only [selectBest] at this
      rcases List.mem_cons.mp this with h' | h'
      · exact List.mem_cons.mpr (Or.inl h')
      · exact List.mem_cons.mpr (Or.inr (List.mem_cons.mpr (Or.inr h')))

theorem selectBest_min (c : List Char) (cs : List (List Char)) :
    ∀ x ∈ c :: cs, keyLt x (selectBest c cs) = false := by
  induction cs generalizing c with
  | nil =>
    intro x hx
    rcases List.mem_cons.mp hx with h | h
    · subst h; simpa [selectBest] using keyLt_irrefl x
    · simp at h
  | cons y ys ih =>
    intro x hx
    simp only [selectBest, List.foldl_cons]
    by_cases hy : keyLt y c = true
    · -- the running best is replaced by `y`
      simp only [hy, if_true]
      have hres := ih y
      simp only [selectBest] at hres
      rcases List.mem_cons.mp hx with h | h
      · -- x = c : since keyLt y c and the result is key-minimal among y :: ys
        subst h
        cases hxr : keyLt x (List.foldl (fun best z => if keyLt z best then z else best) y ys) with
        | false => rfl
        | true =>
          have hyr := hres y (List.mem_cons_self _ _)
          have : keyLt y x = true := hy
          have habs : keyLt y (List.foldl (fun best z => if keyLt z best then z else best) y ys) = true :=
            keyLt_trans this hxr
          rw [hyr] at habs
          exact absurd habs (by simp)
      · rcases List.mem_cons.mp h with h' | h'
        · subst h'
          exact hres x (List.mem_cons_self _ _)
        · exact hres x (List.mem_cons.mpr (Or.inr h'))
    · have hy' : (if keyLt y c then y else c) = c := by simp [hy]
      rw [hy']
      have hres := ih c
      simp only [selectBest] at hres
      rcases List.mem_cons.mp hx with h | h
      · subst h; exact hres x (List.mem_cons_self _ _)
      · rcases List.mem_cons.mp h with h' | h'
        · -- x = y : y does not sort before c, and the result does not sort after c
          subst h'
          cases hxr : keyLt x (List.foldl (fun best z => if keyLt z best then z else best) c ys) with
          | false => rfl
          | true =>
            have hcr := hres c (List.mem_cons_self _ _)
            rcases keyLt_connex hcr with he | hlt
            · rw [← he] at hxr
              rw [hxr] at hy
              exact absurd hy (by simp)
            · have := keyLt_trans hxr hlt
              rw [this] at hy
              exact absurd hy (by simp)
        · exact hres x (List.mem_cons.mpr (Or.inr h'))

theorem preNilFalse (a x : List Char) :
    ((a ++ '/' :: x).isPrefixOf ([] : List Char)) = false := by
  cases a <;> rfl

theorem slashNotPre {a b x : List Char} (ha : '/' ∉ a) (hb : '/' ∉ b) :
    (a ++ '/' :: x).isPrefixOf b = false := by
  induction a generalizing b with
  | nil =>
    cases b with
    | nil => rfl
    | cons cb bs =>
      have hcb : cb ≠ '/' := fun h => hb (h ▸ List.mem_cons_self _ _)
      simp [List.isPrefixOf, Ne.symm hcb]
  | cons ca as ih =>
    cases b with
    | nil => rfl
    | cons cb bs =>
      have has : '/' ∉ as := fun h => ha (List.mem_cons.mpr (Or.inr h))
      have hbs : '/' ∉ bs := fun h => hb (List.mem_cons.mpr (Or.inr h))
      by_cases hab : ca = cb
      · simp [List.isPrefixOf, hab, ih has hbs]
      · simp [List.isPrefixOf, hab]

theorem slashPreIff {a b x y : List Char} (ha : '/' ∉ a) (hb : '/' ∉ b) :
    (a ++ '/' :: x).isPrefixOf (b ++ '/' :: y) = true ↔ (a = b ∧ x.isPrefixOf y = true) := by
  induction a generalizing b with
  | nil =>
    cases b with
    | nil => simp [List.isPrefixOf]
    | cons cb bs =>
      have hcb : cb ≠ '/' := fun h => hb (h ▸ List.mem_cons_self _ _)
      simp [List.isPrefixOf, Ne.symm hcb]
  | cons ca as ih =>
    cases b with
    | nil =>
      have hca : ca ≠ '/' := fun h => ha (h ▸ List.mem_cons_self _ _)
      simp [List.isPrefixOf, hca]
    | cons cb bs =>
      have has : '/' ∉ as := fun h => ha (List.mem_cons.mpr (Or.inr h))
      have hbs : '/' ∉ bs := fun h => hb (List.mem_cons.mpr (Or.inr h))
      by_cases hab : ca = cb
      · subst hab
        rw [List.cons_append, List.cons_append,
          show ((ca :: (as ++ '/' :: x)).isPrefixOf (ca :: (bs ++ '/' :: y))) =
            ((as ++ '/' :: x).isPrefixOf (bs ++ '/' :: y)) by simp [List.isPrefixOf]]
        rw [ih has hbs]
        constructor
        · rintro ⟨h1, h2⟩
          exact ⟨by rw [h1], h2⟩
        · rintro ⟨h1, h2⟩
          have h3 : as = bs := by injection h1
          exact ⟨h3, h2⟩
      · constructor
        · intro h
          rw [List.cons_append, List.cons_append] at h
          simp [List.isPrefixOf, hab] at h
        · rintro ⟨h1, _⟩
          have h3 : ca = cb := by injection h1
          exact absurd h3 hab

theorem joinSepP_cons_cons (a : List Char) (b : List Char) (cs : List (List Char)) :
    joinSepP (a :: b :: cs) = a ++ '/' :: joinSepP (b :: cs) := rfl

/-- Core of the render equivalence, on the slash-joined strings. -/
theorem joinSep_pre_iff :
    ∀ (d t : List (List Char)), d ≠ [] →
      (∀ c ∈ d, validComp c) → (∀ c ∈ t, validComp c) →
      ((joinSepP d ++ ['/']).isPrefixOf (joinSepP t) = true ↔
        (d.isPrefixOf t = true ∧ d ≠ t)) := by
  intro d
  induction d with
  | nil => intro t h; exact absurd rfl h
  | cons a d' ih =>
    intro t _ hd ht
    have hav : validComp a := hd a (List.mem_cons_self _ _)
    cases d' with
    | nil =>
      cases t with
      | nil =>
        constructor
        · intro h
          simp only [joinSepP] at h
          rw [show (a ++ ['/'] : List Char) = a ++ '/' :: [] from rfl, preNilFalse] at h
          exact absurd h (by simp)
        · intro h
          exact absurd h.1 (by simp [List.isPrefixOf])
      | cons b t' =>
        have hbv : validComp b := ht b (List.mem_cons_self _ _)
        cases t' with
        | nil =>
          constructor
          · intro h
            simp only [joinSepP] at h
            rw [show (a ++ ['/'] : List Char) = a ++ '/' :: [] from rfl,
              slashNotPre hav.2 hbv.2] at h
            exact absurd h (by simp)
          · intro h
            have hab : a = b := by
              have h1 := h.1
              simp [List.isPrefixOf] at h1
              exact h1
            exact absurd (by rw [hab]) h.2
        | cons t0 t'' =>
          simp only [joinSepP]
          rw [show (a ++ ['/'] : List Char) = a ++ '/' :: [] from rfl,
            slashPreIff hav.2 hbv.2]
          constructor
          · intro h
            refine ⟨by simp [List.isPrefixOf, h.1], by simp⟩
          · intro h
            have hab : a = b := by
              have h1 := h.1
              simp [List.isPrefixOf] at h1
              exact h1
            exact ⟨hab, by simp [List.isPrefixOf]⟩
    | cons a2 d'' =>
      have hd' : ∀ c ∈ a2 :: d'', validComp c := fun c hc => hd c (List.mem_cons.mpr (Or.inr hc))
      cases t with
      | nil =>
        constructor
        · intro h
          simp only [joinSepP] at h
          rw [List.append_assoc, List.cons_append, preNilFalse] at h
          exact absurd h (by simp)
        · intro h
          exact absurd h.1 (by simp [List.isPrefixOf])
      | cons b t' =>
        have hbv : validComp b := ht b (List.mem_cons_self _ _)
        have ht' : ∀ c ∈ t', validComp c := fun c hc => ht c (List.mem_cons.mpr (Or.inr hc))
        cases t' with
        | nil =>
          constructor
          · intro h
            simp only [joinSepP] at h
            rw [List.append_assoc, List.cons_append, slashNotPre hav.2 hbv.2] at h
            exact absurd h (by simp)
          · intro h
            have h1 := h.1
            simp only [List.isPrefixOf, Bool.and_eq_true, beq_iff_eq] at h1
            exact absurd h1.2 (by simp [List.isPrefixOf])
        | cons t0 t'' =>
          simp only [joinSepP]
          rw [List.append_assoc, List.cons_append, slashPreIff hav.2 hbv.2]
          rw [show (joinSepP (a2 :: d'') ++ '/' :: [] : List Char) =
            joinSepP (a2 :: d'') ++ ['/'] from rfl]
          rw [ih (t0 :: t'') (by simp) hd' (fun c hc => ht' c hc)]
          have hpre : ((a :: a2 :: d'').isPrefixOf (b :: t0 :: t'')) =
              ((a == b) && (a2 :: d'').isPrefixOf (t0 :: t'')) := rfl
          constructor
          · intro h
            refine ⟨?_, ?_⟩
            · rw [hpre, h.2.1]
              simp [h.1]
            · intro heq
              have h2 : a2 :: d'' = t0 :: t'' := by
                have h3 := congrArg List.tail heq
                simpa using h3
              exact h.2.2 h2
          · intro h
            have h1 := h.1
            rw [hpre, Bool.and_eq_true, beq_iff_eq] at h1
            refine ⟨h1.1, h1.2, ?_⟩
            intro heq
            exact h.2 (by rw [h1.1, heq])

/-- The string test of the source equals strict component containment for
normalized paths. -/
theorem render_pre_iff {d t : List (List Char)} (hd : validPath d)
    (ht : ∀ c ∈ t, validComp c) :
    ((renderP d ++ ['/']).isPrefixOf (renderP t) = true) ↔ containedIn d t := by
  unfold renderP containedIn
  rw [show ('/' :: joinSepP d ++ ['/'] : List Char) = '/' :: (joinSepP d ++ ['/']) from rfl]
  rw [show (('/' :: (joinSepP d ++ ['/'])).isPrefixOf ('/' :: joinSepP t)) =
    ((joinSepP d ++ ['/']).isPrefixOf (joinSepP t)) by simp [List.isPrefixOf]]
  exact joinSep_pre_iff d t hd.1 hd.2 ht

/-- Components surviving `normSegs` are nonempty and inherit
slash-freeness from the input segments. -/
theorem normSegs_valid {segs : List (List Char)} (h : ∀ c ∈ segs, '/' ∉ c) :
    ∀ c ∈ normSegs segs, validComp c := by
  unfold normSegs
  suffices hgen : ∀ (l : List (List Char)) (acc : List (List Char)),
      (∀ c ∈ l, '/' ∉ c) → (∀ c ∈ acc, validComp c) →
      ∀ c ∈ l.foldl
        (fun acc c =>
          if c = [] ∨ c = ['.'] then acc
          else if c = ['.', '.'] then acc.dropLast
          else acc ++ [c]) acc, validComp c by
    exact hgen segs [] h (by simp)
  intro l
  induction l with
  | nil => intro acc _ hacc c hc; exact hacc c hc
  | cons x xs ih =>
    intro acc hl hacc c hc
    simp only [List.foldl_cons] at hc
    by_cases h1 : x = [] ∨ x = ['.']
    · rw [if_pos h1] at hc
      exact ih acc (fun c hc' => hl c (List.mem_cons.mpr (Or.inr hc'))) hacc c hc
    · rw [if_neg h1] at hc
      by_cases h2 : x = ['.', '.']
      · rw [if_pos h2] at hc
        refine ih acc.dropLast (fun c hc' => hl c (List.mem_cons.mpr (Or.inr hc')))
          (fun c hc' => hacc c (List.dropLast_subset _ hc')) c hc
      · rw [if_neg h2] at hc
        refine ih (acc ++ [x]) (fun c hc' => hl c (List.mem_cons.mpr (Or.inr hc')))
          ?_ c hc
        intro c hc'
        rcases List.mem_append.mp hc' with h' | h'
        · exact hacc c h'
        · have : c = x := by simpa using h'
          subst this
          exact ⟨fun he => h1 (Or.inl he), hl c (List.mem_cons_self _ _)⟩

/-! ## Generic facts about `List.isPrefixOf` -/

theorem preExt {α : Type} [BEq α] [LawfulBEq α] {a b : List α} :
    a.isPrefixOf b = true ↔ ∃ t, b = a ++ t := by
  induction a generalizing b with
  | nil => simp [List.isPrefixOf]
  | cons x xs ih =>
    cases b with
    | nil =>
      simp only [List.isPrefixOf]
      constructor
      · intro h; exact absurd h (by simp)
      · rintro ⟨t, ht⟩; exact absurd ht (by simp)
    | cons y ys =>
      simp only [List.isPrefixOf, Bool.and_eq_true, beq_iff_eq]
      rw [ih]
      constructor
      · rintro ⟨he, t, ht⟩
        exact ⟨t, by rw [he, ht]; rfl⟩
      · rintro ⟨t, ht⟩
        injection ht with h1 h2
        exact ⟨h1.symm, t, h2⟩

theorem preRefl {α : Type} [BEq α] [LawfulBEq α] (a : List α) : a.isPrefixOf a = true :=
  preExt.mpr ⟨[], by simp⟩

theorem preAppend {α : Type} [BEq α] [LawfulBEq α] (a t : List α) :
    a.isPrefixOf (a ++ t) = true :=
  preExt.mpr ⟨t, rfl⟩

theorem preTrans {α : Type} [BEq α] [LawfulBEq α] {a b c : List α}
    (h1 : a.isPrefixOf b = true) (h2 : b.isPrefixOf c = true) : a.isPrefixOf c = true := by
  obtain ⟨t1, ht1⟩ := preExt.mp h1
  obtain ⟨t2, ht2⟩ := preExt.mp h2
  exact preExt.mpr ⟨t1 ++ t2, by rw [ht2, ht1, List.append_assoc]⟩

theorem preAntisymm {α : Type} [BEq α] [LawfulBEq α] {a b : List α}
    (h1 : a.isPrefixOf b = true) (h2 : b.isPrefixOf a = true) : a = b := by
  obtain ⟨t1, ht1⟩ := preExt.mp h1
  obtain ⟨t2, ht2⟩ := preExt.mp h2
  have hlen : t1 = [] := by
    have h3 : a.length = a.length + t1.length + t2.length := by
      conv_lhs => rw [ht2, ht1]
      simp [List.length_append, Nat.add_assoc]
    have h4 : t1.length = 0 := by omega
    exact List.eq_nil_of_length_eq_zero h4
  rw [ht1, hlen, List.append_nil]

/-! ## Lemmas for the zip-slip check (C1) -/

/-- Components of a resolved member path are valid whenever the member's
segments are slash-free and the destination is normalized. -/
theorem resolveEntry_valid {dest : List (List Char)} {e : ZipEntry}
    (hdest : validPath dest) (hseg : ∀ c ∈ e.segs, '/' ∉ c) :
    ∀ c ∈ resolveEntry dest e, validComp c := by
  unfold resolveEntry
  by_cases habs : e.isAbs
  · rw [if_pos habs]
    exact normSegs_valid hseg
  · rw [if_neg habs]
    refine normSegs_valid ?_
    intro c hc
    rcases List.mem_append.mp hc with h | h
    · exact (hdest.2 c h).2
    · exact hseg c h

/-- The source's string test on one member is exactly strict containment
of the resolved path below the destination. -/
theorem checkMember_iff {dest : List (List Char)} {e : ZipEntry}
    (hdest : validPath dest) (hseg : ∀ c ∈ e.segs, '/' ∉ c) :
    checkMember dest e = true ↔ containedIn dest (resolveEntry dest e) := by
  unfold checkMember
  exact render_pre_iff hdest (resolveEntry_valid hdest hseg)

theorem checkMembers_ok_iff (dest : List (List Char)) :
    ∀ entries : List ZipEntry,
      (checkMembers dest entries = Except.ok () ↔ ∀ e ∈ entries, checkMember dest e = true) := by
  intro entries
  induction entries with
  | nil => simp [checkMembers]
  | cons e rest ih =>
    unfold checkMembers
    by_cases h : checkMember dest e = true
    · rw [if_pos h, ih]
      constructor
      · intro hall x hx
        rcases List.mem_cons.mp hx with h' | h'
        · exact h' ▸ h
        · exact hall x h'
      · intro hall x hx
        exact hall x (List.mem_cons.mpr (Or.inr hx))
    · rw [if_neg h]
      constructor
      · intro hfalse
        exact absurd hfalse (by simp)
      · intro hall
        exact absurd (hall e (List.mem_cons_self _ _)) h

theorem checkMembers_cases (dest : List (List Char)) (entries : List ZipEntry) :
    checkMembers dest entries = Except.ok () ∨ checkMembers dest entries = Except.error () := by
  induction entries with
  | nil => exact Or.inl rfl
  | cons e rest ih =>
    unfold checkMembers
    by_cases h : checkMember dest e = true
    · rw [if_pos h]; exact ih
    · rw [if_neg h]; exact Or.inr rfl

/-! ## Lemmas for the retention sweeper (C4, C5) -/

theorem pass1_kept {rd : List (List Char)} {now cutoff : Int} {disk : List (List Char) → Bool} :
    ∀ (log : List (List (List Char) × Option Int)) (p : List (List Char)) (ts : Option Int),
      (p, ts) ∈ (sweepPass1 rd now cutoff disk log).1 →
      (p, ts) ∈ log ∧ isWithinB rd p = true ∧ disk p = true ∧ ¬ (ts.getD now < cutoff) := by
  intro log
  induction log with
  | nil => intro p ts h; simp [sweepPass1] at h
  | cons hd rest ih =>
    intro p ts h
    obtain ⟨q, tq⟩ := hd
    unfold sweepPass1 at h
    by_cases h1 : isWithinB rd q = true
    · rw [if_neg (by simpa using h1)] at h
      by_cases h2 : disk q = true
      · rw [if_neg (by simpa using h2)] at h
        by_cases h3 : tq.getD now < cutoff
        · rw [if_pos h3] at h
          obtain ⟨hm, hw, hdk, hf⟩ := ih p ts h
          exact ⟨List.mem_cons.mpr (Or.inr hm), hw, hdk, hf⟩
        · rw [if_neg h3] at h
          rcases List.mem_cons.mp h with he | hm
          · obtain ⟨he1, he2⟩ := Prod.mk.injEq .. ▸ he
            subst he1; subst he2
            exact ⟨List.mem_cons_self _ _, h1, h2, h3⟩
          · obtain ⟨hm', hw, hdk, hf⟩ := ih p ts hm
            exact ⟨List.mem_cons.mpr (Or.inr hm'), hw, hdk, hf⟩
      · rw [if_pos (by simpa using h2)] at h
        obtain ⟨hm, hw, hdk, hf⟩ := ih p ts h
        exact ⟨List.mem_cons.mpr (Or.inr hm), hw, hdk, hf⟩
    · rw [if_pos (by simpa using h1)] at h
      obtain ⟨hm, hw, hdk, hf⟩ := ih p ts h
      exact ⟨List.mem_cons.mpr (Or.inr hm), hw, hdk, hf⟩

theorem pass1_kept_of {rd : List (List Char)} {now cutoff : Int} {disk : List (List Char) → Bool} :
    ∀ (log : List (List (List Char) × Option Int)) (p : List (List Char)) (ts : Option Int),
      (p, ts) ∈ log → isWithinB rd p = true → disk p = true → ¬ (ts.getD now < cutoff) →
      (p, ts) ∈ (sweepPass1 rd now cutoff disk log).1 := by
  intro log
  induction log with
  | nil => intro p ts h; simp at h
  | cons hd rest ih =>
    intro p ts hmem hw hdk hf
    obtain ⟨q, tq⟩ := hd
    unfold sweepPass1
    rcases List.mem_cons.mp hmem with he | hm
    · obtain ⟨he1, he2⟩ := Prod.mk.injEq .. ▸ he
      subst he1; subst he2
      rw [if_neg (by simpa using hw), if_neg (by simpa using hdk), if_neg hf]
      exact List.mem_cons_self _ _
    · by_cases h1 : isWithinB rd q = true
      · rw [if_neg (by simpa using h1)]
        by_cases h2 : disk q = true
        · rw [if_neg (by simpa using h2)]
          by_cases h3 : tq.getD now < cutoff
          · rw [if_pos h3]
            exact ih p ts hm hw hdk hf
          · rw [if_neg h3]
            exact List.mem_cons.mpr (Or.inr (ih p ts hm hw hdk hf))
        · rw [if_pos (by simpa using h2)]
          exact ih p ts hm hw hdk hf
      · rw [if_pos (by simpa using h1)]
        exact ih p ts hm hw hdk hf

theorem pass1_delete_iff {rd : List (List Char)} {now cutoff : Int} {disk : List (List Char) → Bool} :
    ∀ (log : List (List (List Char) × Option Int)) (p : List (List Char)),
      (p ∈ (sweepPass1 rd now cutoff disk log).2 ↔
        ∃ ts, (p, ts) ∈ log ∧ isWithinB rd p = true ∧ disk p = true ∧ ts.getD now < cutoff) := by
  intro log
  induction log with
  | nil => intro p; simp [sweepPass1]
  | cons hd rest ih =>
    intro p
    obtain ⟨q, tq⟩ := hd
    unfold sweepPass1
    by_cases h1 : isWithinB rd q = true
    · rw [if_neg (by simpa using h1)]
      by_cases h2 : disk q = true
      · rw [if_neg (by simpa using h2)]
        by_cases h3 : tq.getD now < cutoff
        · rw [if_pos h3]
          constructor
          · intro h
            rcases List.mem_cons.mp h with he | hm
            · subst he
              exact ⟨tq, List.mem_cons_self _ _, h1, h2, h3⟩
            · obtain ⟨ts, hts⟩ := (ih p).mp hm
              exact ⟨ts, List.mem_cons.mpr (Or.inr hts.1), hts.2⟩
          · rintro ⟨ts, hmem, hw, hdk, hst⟩
            rcases List.mem_cons.mp hmem with he | hm
            · obtain ⟨he1, _⟩ := Prod.mk.injEq .. ▸ he
              subst he1
              exact List.mem_cons_self _ _
            · exact List.mem_cons.mpr (Or.inr ((ih p).mpr ⟨ts, hm, hw, hdk, hst⟩))
        · rw [if_neg h3, ih]
          constructor
          · rintro ⟨ts, hmem, hrest⟩
            exact ⟨ts, List.mem_cons.mpr (Or.inr hmem), hrest⟩
          · rintro ⟨ts, hmem, hw, hdk, hst⟩
            rcases List.mem_cons.mp hmem with he | hm
            · obtain ⟨he1, he2⟩ := Prod.mk.injEq .. ▸ he
              subst he1; subst he2
              exact absurd hst h3
            · exact ⟨ts, hm, hw, hdk, hst⟩
      · rw [if_pos (by simpa using h2), ih]
        constructor
        · rintro ⟨ts, hmem, hrest⟩
          exact ⟨ts, List.mem_cons.mpr (Or.inr hmem), hrest⟩
        · rintro ⟨ts, hmem, hw, hdk, hst⟩
          rcases List.mem_cons.mp hmem with he | hm
          · obtain ⟨he1, _⟩ := Prod.mk.injEq .. ▸ he
            subst he1
            exact absurd hdk (by simpa using h2)
          · exact ⟨ts, hm, hw, hdk, hst⟩
    · rw [if_pos (by simpa using h1), ih]
      constructor
      · rintro ⟨ts, hmem, hrest⟩
        exact ⟨ts, List.mem_cons.mpr (Or.inr hmem), hrest⟩
      · rintro ⟨ts, hmem, hw, hdk, hst⟩
        rcases List.mem_cons.mp hmem with he | hm
        · obtain ⟨he1, _⟩ := Prod.mk.injEq .. ▸ he
          subst he1
          exact absurd hw (by simpa using h1)
        · exact ⟨ts, hm, hw, hdk, hst⟩

theorem sweepTargets_src {rd : List (List Char)} :
    ∀ (l seen : List (List (List Char))) (t : List (List Char)),
      t ∈ sweepTargets rd l seen →
      ∃ p ∈ l, isWithinB rd p = true ∧ t = containerDir rd p := by
  intro l
  induction l with
  | nil => intro seen t h; simp [sweepTargets] at h
  | cons p rest ih =>
    intro seen t h
    unfold sweepTargets at h
    by_cases h1 : isWithinB rd p = true
    · rw [if_neg (by simpa using h1)] at h
      by_cases h2 : containerDir rd p ∈ seen
      · rw [if_pos h2] at h
        obtain ⟨q, hq, hrest⟩ := ih seen t h
        exact ⟨q, List.mem_cons.mpr (Or.inr hq), hrest⟩
      · rw [if_neg h2] at h
        rcases List.mem_cons.mp h with he | hm
        · exact ⟨p, List.mem_cons_self _ _, h1, he⟩
        · obtain ⟨q, hq, hrest⟩ := ih _ t hm
          exact ⟨q, List.mem_cons.mpr (Or.inr hq), hrest⟩
    · rw [if_pos (by simpa using h1)] at h
      obtain ⟨q, hq, hrest⟩ := ih seen t h
      exact ⟨q, List.mem_cons.mpr (Or.inr hq), hrest⟩

theorem sweepTargets_cover {rd : List (List Char)} :
    ∀ (l seen : List (List (List Char))) (p : List (List Char)),
      p ∈ l → isWithinB rd p = true →
      containerDir rd p ∈ sweepTargets rd l seen ∨ containerDir rd p ∈ seen := by
  intro l
  induction l with
  | nil => intro seen p h; simp at h
  | cons q rest ih =>
    intro seen p hmem hw
    unfold sweepTargets
    rcases List.mem_cons.mp hmem with he | hm
    · subst he
      rw [if_neg (by simpa using hw)]
      by_cases h2 : containerDir rd p ∈ seen
      · exact Or.inr h2
      · rw [if_neg h2]
        exact Or.inl (List.mem_cons_self _ _)
    · by_cases h1 : isWithinB rd q = true
      · rw [if_neg (by simpa using h1)]
        by_cases h2 : containerDir rd q ∈ seen
        · rw [if_pos h2]
          exact ih seen p hm hw
        · rw [if_neg h2]
          rcases ih (containerDir rd q :: seen) p hm hw with h' | h'
          · exact Or.inl (List.mem_cons.mpr (Or.inr h'))
          · rcases List.mem_cons.mp h' with he' | hs
            · exact Or.inl (he' ▸ List.mem_cons_self _ _)
            · exact Or.inr hs
      · rw [if_pos (by simpa using h1)]
        exact ih seen p hm hw

/-- The container of a contained root is itself contained, with valid
components. -/
theorem containerDir_within {rd p : List (List Char)} (hrd : validPath rd)
    (hp : ∀ c ∈ p, validComp c) (h : isWithinB rd p = true) :
    isWithinB rd (containerDir rd p) = true ∧ ∀ c ∈ containerDir rd p, validComp c := by
  have hcont : containedIn rd p := (render_pre_iff hrd hp).mp h
  obtain ⟨s, hs⟩ := preExt.mp hcont.1
  have hsne : s ≠ [] := by
    intro h0
    exact hcont.2 (by rw [hs, h0, List.append_nil])
  unfold containerDir
  rw [if_pos h]
  have hdrop : p.drop rd.length = s := by
    rw [hs]
    exact List.drop_left rd s
  rw [hdrop]
  by_cases hlen : 2 ≤ s.length
  · rw [if_pos hlen]
    have hvalid : ∀ c ∈ rd ++ s.take 2, validComp c := by
      intro c hc
      rcases List.mem_append.mp hc with h' | h'
      · exact hrd.2 c h'
      · refine hp c ?_
        rw [hs]
        exact List.mem_append.mpr (Or.inr (List.take_subset 2 s h'))
    constructor
    · refine (render_pre_iff hrd hvalid).mpr ⟨preAppend rd (s.take 2), ?_⟩
      intro heq
      have h0 : (s.take 2).length = 0 := by
        have := congrArg List.length heq
        simp [List.length_append] at this
        simpa using this.symm
      rw [List.length_take] at h0
      omega
    · exact hvalid
  · rw [if_neg hlen]
    exact ⟨h, hp⟩

/-- Every deleted target stems from a stale, on-disk, in-tree log entry
and is the in-tree container directory of that entry. -/
theorem deleted_src {rd : List (List Char)} {now maxAge : Int}
    {disk : List (List Char) → Bool} {log : List (List (List Char) × Option Int)} :
    ∀ t ∈ (cleanupStaleReports rd now maxAge disk log).2,
      ∃ q ts, (q, ts) ∈ log ∧ isWithinB rd q = true ∧ disk q = true ∧
        ts.getD now < now - maxAge ∧ t = containerDir rd q ∧ isWithinB rd t = true := by
  intro t ht
  unfold cleanupStaleReports at ht
  obtain ⟨hmem, hwt⟩ := List.mem_filter.mp ht
  obtain ⟨q, hq, hwq, hteq⟩ := sweepTargets_src _ _ t hmem
  obtain ⟨ts, hts, hw, hdk, hst⟩ := (pass1_delete_iff _ q).mp hq
  exact ⟨q, ts, hts, hw, hdk, hst, hteq, hwt⟩

/-- Keys of kept entries: with distinct log keys, a key appears with a
unique timestamp. -/
theorem log_key_unique :
    ∀ (log : List (List (List Char) × Option Int)), (log.map Prod.fst).Nodup →
      ∀ p a b, (p, a) ∈ log → (p, b) ∈ log → a = b := by
  intro log
  induction log with
  | nil => intro _ p a b h; simp at h
  | cons hd rest ih =>
    intro hnd p a b ha hb
    obtain ⟨q, tq⟩ := hd
    simp only [List.map_cons, List.nodup_cons] at hnd
    rcases List.mem_cons.mp ha with hea | hma
    · obtain ⟨he1, he2⟩ := Prod.mk.injEq .. ▸ hea
      subst he1; subst he2
      rcases List.mem_cons.mp hb with heb | hmb
      · obtain ⟨_, he4⟩ := Prod.mk.injEq .. ▸ heb
        exact he4.symm
      · exact absurd (List.mem_map.mpr ⟨(p, b), hmb, rfl⟩) hnd.1
    · rcases List.mem_cons.mp hb with heb | hmb
      · obtain ⟨he3, _⟩ := Prod.mk.injEq .. ▸ heb
        subst he3
        exact absurd (List.mem_map.mpr ⟨(p, a), hma, rfl⟩) hnd.1
      · exact ih hnd.2 p a b hma hmb

/-! ## Lemmas for the dedup/insert operation (C2) -/

theorem chunkListF_join {α : Type} (size : Nat) (hsize : 1 ≤ size) :
    ∀ (fuel : Nat) (l : List α), l.length ≤ fuel → (chunkListF size fuel l).flatten = l := by
  intro fuel
  induction fuel with
  | zero =>
    intro l hl
    have : l = [] := List.eq_nil_of_length_eq_zero (Nat.le_zero.mp hl)
    subst this
    rfl
  | succ n ih =>
    intro l hl
    cases l with
    | nil => rfl
    | cons x xs =>
      show (List.take size (x :: xs) :: chunkListF size n (List.drop size (x :: xs))).flatten
        = x :: xs
      rw [List.flatten, ih]
      · exact List.take_append_drop size (x :: xs)
      · rw [List.length_drop]
        have := List.length_cons x xs ▸ hl
        omega

theorem chunkList_join {α : Type} (l : List α) (size : Nat) :
    (chunkList l size).flatten = l := by
  unfold chunkList
  exact chunkListF_join _ (by split <;> omega) l.length l (le_refl _)

theorem foldl_filter_append {α : Type} (p : α → Bool) :
    ∀ (chunks : List (List α)) (acc : List α),
      chunks.foldl (fun a c => a ++ c.filter p) acc = acc ++ (chunks.map (·.filter p)).flatten := by
  intro chunks
  induction chunks with
  | nil => intro acc; simp
  | cons c cs ih =>
    intro acc
    rw [List.foldl_cons, ih, List.map_cons, List.flatten, List.append_assoc]

theorem mem_existingIds {persisted uniqueIds : List (List Char)} {x : List Char} :
    x ∈ existingIds persisted uniqueIds ↔ x ∈ uniqueIds ∧ x ∈ persisted := by
  unfold existingIds
  rw [foldl_filter_append, List.nil_append, List.mem_flatten]
  constructor
  · rintro ⟨c, hc, hx⟩
    obtain ⟨c0, hc0, hc0e⟩ := List.mem_map.mp hc
    subst hc0e
    obtain ⟨hx1, hx2⟩ := List.mem_filter.mp hx
    refine ⟨?_, by simpa using hx2⟩
    rw [← chunkList_join uniqueIds 900]
    exact List.mem_flatten.mpr ⟨c0, hc0, hx1⟩
  · rintro ⟨hu, hp⟩
    have : x ∈ (chunkList uniqueIds 900).flatten := by
      rw [chunkList_join]; exact hu
    obtain ⟨c, hc, hxc⟩ := List.mem_flatten.mp this
    exact ⟨c.filter (fun tid => tid ∈ persisted), List.mem_map.mpr ⟨c, hc, rfl⟩,
      List.mem_filter.mpr ⟨hxc, by simpa using hp⟩⟩

theorem mem_insert_fst {persisted : List (List Char)} {data : List (Option (List Char))}
    {x : List Char} :
    x ∈ (insertTransactionsForSuspect persisted data).1 ↔
      x ∈ persisted ∨ ∃ item ∈ data, truthyId item = some x := by
  simp only [insertTransactionsForSuspect]
  rw [List.mem_append, List.mem_filterMap]
  constructor
  · rintro (hp | ⟨item, hm, hg⟩)
    · exact Or.inl hp
    · refine Or.inr ⟨item, hm, ?_⟩
      unfold insertSelect at hg
      cases ht : truthyId item with
      | none => rw [ht] at hg; simp at hg
      | some tid =>
        rw [ht] at hg
        dsimp only at hg
        by_cases he : tid ∈ existingIds persisted (data.filterMap truthyId).dedup
        · rw [if_pos he] at hg; simp at hg
        · rw [if_neg he] at hg
          exact hg
  · rintro (hp | ⟨item, hm, hg⟩)
    · exact Or.inl hp
    · by_cases hper : x ∈ persisted
      · exact Or.inl hper
      · refine Or.inr ⟨item, hm, ?_⟩
        unfold insertSelect
        rw [hg]
        dsimp only
        have hne : x ∉ existingIds persisted (data.filterMap truthyId).dedup := by
          intro hmem
          exact hper (mem_existingIds.mp hmem).2
        rw [if_neg hne]

theorem length_filterMap_countP {α β : Type} (g : α → Option β) :
    ∀ l : List α, (l.filterMap g).length = l.countP (fun x => (g x).isSome) := by
  intro l
  induction l with
  | nil => rfl
  | cons x xs ih =>
    rw [List.filterMap_cons, List.countP_cons]
    cases hg : g x with
    | none => simpa [hg] using ih
    | some b => simp [hg, ih]

theorem insert_count {persisted : List (List Char)} {data : List (Option (List Char))} :
    (insertTransactionsForSuspect persisted data).2 =
      data.countP (fun item =>
        match truthyId item with
        | some tid => decide (tid ∉ persisted)
        | none => false) := by
  simp only [insertTransactionsForSuspect]
  rw [length_filterMap_countP]
  refine List.countP_congr ?_
  intro item hm
  cases ht : truthyId item with
  | none => simp [insertSelect, ht]
  | some tid =>
    have htid : tid ∈ (data.filterMap truthyId).dedup :=
      List.mem_dedup.mpr (List.mem_filterMap.mpr ⟨item, hm, ht⟩)
    by_cases hper : tid ∈ persisted
    · have he : tid ∈ existingIds persisted (data.filterMap truthyId).dedup :=
        mem_existingIds.mpr ⟨htid, hper⟩
      simp [insertSelect, ht, he, hper]
    · have he : tid ∉ existingIds persisted (data.filterMap truthyId).dedup := by
        intro hmem
        exact hper (mem_existingIds.mp hmem).2
      simp [insertSelect, ht, he, hper]

/-! ## Destructuring lemmas for the parser (C6, C8, C10) -/

theorem pickBest_spec {raw r : List Char} (h : pickBestNumericId raw = r) (hne : r ≠ []) :
    r ∈ (digitRuns raw).filter (fun c => 16 ≤ c.length) ∧
    ∀ c ∈ (digitRuns raw).filter (fun c => 16 ≤ c.length),
      c.length ≤ r.length ∧ (c.length = r.length → (r = c ∨ lexLtCh r c = true)) := by
  unfold pickBestNumericId at h
  by_cases hraw : raw = []
  · rw [if_pos hraw] at h
    exact absurd h.symm hne
  · rw [if_neg hraw] at h
    rw [digitRuns_collapseWs (by decide) raw] at h
    revert h
    cases hc : (digitRuns raw).filter (fun c => 16 ≤ c.length) with
    | nil => intro h; exact absurd h.symm hne
    | cons c cs =>
      intro h
      subst h
      constructor
      · rw [hc] at *
        exact selectBest_mem c cs
      · intro x hx
        have hmin := selectBest_min c cs x (hc ▸ hx)
        have h1 : ¬ (selectBest c cs).length < x.length := by
          intro hlt
          rw [show keyLt x (selectBest c cs) =
            ((selectBest c cs).length < x.length ||
              (x.length = (selectBest c cs).length && lexLtCh x (selectBest c cs))) from rfl] at hmin
          simp [hlt] at hmin
        refine ⟨Nat.le_of_not_lt h1, ?_⟩
        intro heq
        rw [show keyLt x (selectBest c cs) =
          ((selectBest c cs).length < x.length ||
            (x.length = (selectBest c cs).length && lexLtCh x (selectBest c cs))) from rfl] at hmin
        rw [Bool.or_eq_false_iff, Bool.and_eq_false_iff] at hmin
        rcases hmin.2 with h' | h'
        · exact absurd heq (by simpa using h')
        · rcases lexLtCh_connex h' with h'' | h''
          · exact Or.inl h''.symm
          · exact Or.inr h''

/-- The reconstructor's id is `_pick_best_numeric_id` of the normalized
text, it is nonempty, and the amount is the absolute value taken at
parser.py:152-154. -/
theorem parseBlock_inv {block : List Char} {tx : Transaction}
    (h : parseWechatTextBlock block = some tx) :
    tx.transaction_id = pickBestNumericId (stripPy (collapseWs ' ' false block)) ∧
    tx.transaction_id ≠ [] ∧ 0 ≤ tx.amount := by
  simp only [parseWechatTextBlock] at h
  split at h
  · exact absurd h (by simp)
  · split at h
    · exact absurd h (by simp)
    · split at h
      · exact absurd h (by simp)
      · split at h
        · exact absurd h (by simp)
        · rename_i hblock htext dm hdm htid
          obtain rfl := Option.some.inj h
          refine ⟨rfl, htid, ?_⟩
          show 0 ≤ (if (_ : ℚ) < 0 then _ else _)
          split
          · exact abs_nonneg _
          · rename_i hge
            exact le_of_not_lt hge

theorem emitTx_inv {t tx : Transaction} (h : emitTx t = some tx) :
    tx = t ∧ tx.transaction_id ≠ [] := by
  unfold emitTx at h
  split at h
  · rename_i htid
    obtain rfl := Option.some.inj h
    exact ⟨rfl, htid⟩
  · exact absurd h (by simp)

theorem rowToTx_tid {bt : BillType} {row : List (Option (List Char))} {tx : Transaction}
    (h : rowToTx bt row = some tx) : tx.transaction_id ≠ [] := by
  simp only [rowToTx] at h
  split at h
  · exact absurd h (by simp)
  · split at h
    · exact absurd h (by simp)
    · split at h
      · exact absurd h (by simp)
      · cases bt with
        | wechat =>
          simp only at h
          split at h
          · exact absurd h (by simp)
          · exact (emitTx_inv h).2
        | alipay =>
          simp only at h
          split at h
          · exact absurd h (by simp)
          · exact (emitTx_inv h).2

theorem rowToTx_wechat_amount {row : List (Option (List Char))} {tx : Transaction}
    (h : rowToTx .wechat row = some tx) :
    tx.amount = parseAmountStr ((row.map cleanStr).getD 5 []) := by
  simp only [rowToTx] at h
  split at h
  · exact absurd h (by simp)
  · split at h
    · exact absurd h (by simp)
    · split at h
      · exact absurd h (by simp)
      · split at h
        · exact absurd h (by simp)
        · rename_i hlen
          obtain ⟨rfl, _⟩ := emitTx_inv h
          show (if 5 < (row.map cleanStr).length then
            parseAmountStr ((row.map cleanStr).getD 5 []) else 0) = _
          rw [if_pos (by omega)]

theorem rowToTx_alipay_amount {row : List (Option (List Char))} {tx : Transaction}
    (h : rowToTx .alipay row = some tx) :
    tx.amount = parseAmountStr ((row.map cleanStr).getD 4 []) := by
  simp only [rowToTx] at h
  split at h
  · exact absurd h (by simp)
  · split at h
    · exact absurd h (by simp)
    · split at h
      · exact absurd h (by simp)
      · split at h
        · exact absurd h (by simp)
        · obtain ⟨rfl, _⟩ := emitTx_inv h
          rfl

theorem excelRow_alipay_inv {headers : List (List Char)} {row : List (Option (List Char))}
    {tx : Transaction} (h : excelRowToTx .alipay headers row = some tx) :
    tx.transaction_id ≠ [] ∧
    tx.amount = parseAmountOpt (getCol headers row ("金额".toList)) := by
  simp only [excelRowToTx] at h
  split at h
  · exact absurd h (by simp)
  · split at h
    · exact absurd h (by simp)
    · rename_i hguard
      obtain rfl := Option.some.inj h
      refine ⟨?_, rfl⟩
      intro h0
      exact hguard (Or.inl h0)

theorem excelRow_wechat_inv {headers : List (List Char)} {row : List (Option (List Char))}
    {tx : Transaction} (h : excelRowToTx .wechat headers row = some tx) :
    tx.transaction_id ≠ [] ∧
    tx.amount = parseAmountOpt (getCol headers row
      (if "金额(元)".toList ∈ headers then "金额(元)".toList else "金额".toList)) := by
  simp only [excelRowToTx] at h
  split at h
  · exact absurd h (by simp)
  · split at h
    · exact absurd h (by simp)
    · rename_i hguard
      obtain rfl := Option.some.inj h
      refine ⟨?_, rfl⟩
      intro h0
      have h0' : cleanId (getCol headers row ("交易单号".toList)) = [] := h0
      exact hguard ⟨Or.inl h0', by rw [h0']; simp⟩

theorem parseExcelBill_mem {rows : List (List (Option (List Char)))} {tx : Transaction}
    (h : tx ∈ parseExcelBill rows) :
    ∃ bt headers row, excelRowToTx bt headers row = some tx := by
  unfold parseExcelBill at h
  revert h
  cases hf : findHeaderRow 0 rows with
  | none => intro h; simp at h
  | some ibt =>
    intro h
    obtain ⟨row, _, hrow⟩ := List.mem_filterMap.mp h
    exact ⟨ibt.2, _, row, hrow⟩

theorem excelRowToTx_tid {bt : BillType} {headers : List (List Char)}
    {row : List (Option (List Char))} {tx : Transaction}
    (h : excelRowToTx bt headers row = some tx) : tx.transaction_id ≠ [] := by
  cases bt with
  | alipay => exact (excelRow_alipay_inv h).1
  | wechat => exact (excelRow_wechat_inv h).1

/-! ### Membership lemmas for the page scan and the PDF routes -/

theorem goPage_src :
    ∀ (fuel : Nat) (lines seen : List (List Char)) (tx : Transaction),
      tx ∈ goPage fuel lines seen → ∃ block, parseWechatTextBlock block = some tx := by
  intro fuel
  induction fuel with
  | zero => intro lines seen tx h; simp [goPage] at h
  | succ n ih =>
    intro lines seen tx h
    cases lines with
    | nil => simp [goPage] at h
    | cons line rest =>
      unfold goPage at h
      split at h
      · exact ih _ _ tx h
      · split at h
        · exact ih _ _ tx h
        · dsimp only at h
          split at h
          · rename_i tx' heq
            split at h
            · rcases List.mem_cons.mp h with he | hm
              · exact ⟨_, by rw [he]; exact heq⟩
              · exact ih _ _ tx hm
            · exact ih _ _ tx h
          · exact ih _ _ tx h

theorem parseWechatTextPage_src {t : Option (List Char)} {tx : Transaction}
    (h : tx ∈ parseWechatTextPage t) : ∃ block, parseWechatTextBlock block = some tx := by
  cases t with
  | none => simp [parseWechatTextPage] at h
  | some text =>
    simp only [parseWechatTextPage] at h
    split at h
    · simp at h
    · exact goPage_src _ _ _ tx h

theorem processTable_src {cur : Option BillType} {table : List (List (Option (List Char)))}
    {tx : Transaction} (h : tx ∈ (processTable cur table).2) :
    ∃ bt row, rowToTx bt row = some tx := by
  unfold processTable at h
  revert h
  cases headerScanAux 0 table with
  | some ibt =>
    intro h
    obtain ⟨row, _, hrow⟩ := List.mem_filterMap.mp h
    exact ⟨ibt.2, row, hrow⟩
  | none =>
    cases cur with
    | some bt =>
      intro h
      obtain ⟨row, _, hrow⟩ := List.mem_filterMap.mp h
      exact ⟨bt, row, hrow⟩
    | none =>
      cases hg : guessBillType table with
      | none => intro h; simp at h
      | some g =>
        intro h
        obtain ⟨row, _, hrow⟩ := List.mem_filterMap.mp h
        exact ⟨g, row, hrow⟩

theorem processTables_src :
    ∀ (ts : List (List (List (Option (List Char))))) (cur : Option BillType) (tx : Transaction),
      tx ∈ (processTables cur ts).2 → ∃ bt row, rowToTx bt row = some tx := by
  intro ts
  induction ts with
  | nil => intro cur tx h; simp [processTables] at h
  | cons t rest ih =>
    intro cur tx h
    unfold processTables at h
    rcases List.mem_append.mp h with h' | h'
    · exact processTable_src h'
    · exact ih _ tx h'

theorem processPdfPages_src :
    ∀ (pages : List PdfPage) (cur : Option BillType) (tx : Transaction),
      tx ∈ processPdfPages cur pages →
      (∃ bt row, rowToTx bt row = some tx) ∨ (∃ block, parseWechatTextBlock block = some tx) := by
  intro pages
  induction pages with
  | nil => intro cur tx h; simp [processPdfPages] at h
  | cons p ps ih =>
    intro cur tx h
    unfold processPdfPages at h
    split at h
    · rcases List.mem_append.mp h with h' | h'
      · exact Or.inr (parseWechatTextPage_src h')
      · exact ih _ tx h'
    · rcases List.mem_append.mp h with h' | h'
      · revert h'
        split
        · intro h'
          exact Or.inr (parseWechatTextPage_src h')
        · intro h'
          exact Or.inl (processTables_src _ _ tx h')
      · exact ih _ tx h'

theorem wechatRouteFilter_src :
    ∀ (l : List Transaction) (seen : List (List Char)) (tx : Transaction),
      tx ∈ (wechatRouteFilter l seen).1 → tx ∈ l := by
  intro l
  induction l with
  | nil => intro seen tx h; simp [wechatRouteFilter] at h
  | cons t rest ih =>
    intro seen tx h
    unfold wechatRouteFilter at h
    split at h
    · exact List.mem_cons.mpr (Or.inr (ih _ tx h))
    · rcases List.mem_cons.mp h with he | hm
      · exact List.mem_cons.mpr (Or.inl he)
      · exact List.mem_cons.mpr (Or.inr (ih _ tx hm))

theorem wechatRouteAux_src :
    ∀ (pages : List PdfPage) (seen : List (List Char)) (tx : Transaction),
      tx ∈ wechatRouteAux pages seen → ∃ block, parseWechatTextBlock block = some tx := by
  intro pages
  induction pages with
  | nil => intro seen tx h; simp [wechatRouteAux] at h
  | cons p ps ih =>
    intro seen tx h
    unfold wechatRouteAux at h
    rcases List.mem_append.mp h with h' | h'
    · exact parseWechatTextPage_src (wechatRouteFilter_src _ _ tx h')
    · exact ih _ tx h'

/-- Every record `parse_pdf_bill` returns stems from the table-row mapping
or from the text-block reconstructor. -/
theorem parsePdfBill_src {pages : List PdfPage} {txs : List Transaction} {tx : Transaction}
    (h : parsePdfBill pages = Except.ok txs) (hm : tx ∈ txs) :
    (∃ bt row, rowToTx bt row = some tx) ∨ (∃ block, parseWechatTextBlock block = some tx) := by
  cases pages with
  | nil =>
    simp only [parsePdfBill] at h
    obtain rfl := Except.ok.inj h
    simp at hm
  | cons p0 ps =>
    simp only [parsePdfBill] at h
    split at h
    · exact absurd h (by simp)
    · split at h
      · obtain rfl := Except.ok.inj h
        exact Or.inr (wechatRouteAux_src _ _ tx hm)
      · obtain rfl := Except.ok.inj h
        exact processPdfPages_src _ _ tx hm

/-! ## The claims -/

/-- Claim C1 (confirmed): if any archive entry's resolved destination path
lies outside the destination directory, `_safe_extract_zip` rejects the
whole archive with zero files written; if every entry's resolved path is
contained, all entries are extracted. -/
theorem C1_zip_slip (dest : List (List Char)) (entries : List ZipEntry)
    (hdest : validPath dest)
    (hseg : ∀ e ∈ entries, ∀ c ∈ e.segs, '/' ∉ c) :
    ((∃ e ∈ entries, ¬ containedIn dest (resolveEntry dest e)) →
      safeExtractZip entries dest = Except.error ()) ∧
    ((∀ e ∈ entries, containedIn dest (resolveEntry dest e)) →
      safeExtractZip entries dest = Except.ok (entries.map (extractTarget dest))) := by
  constructor
  · rintro ⟨e, he, hnc⟩
    rcases checkMembers_cases dest entries with hok | herr
    · exact absurd ((checkMember_iff hdest (hseg e he)).mp
        ((checkMembers_ok_iff dest entries).mp hok e he)) hnc
    · unfold safeExtractZip
      rw [herr]
  · intro hall
    unfold safeExtractZip
    rw [(checkMembers_ok_iff dest entries).mpr
      (fun e he => (checkMember_iff hdest (hseg e he)).mpr (hall e he))]

/-- Witness for C1: a traversal entry aborts a concrete archive, a clean
archive extracts in full. -/
theorem C1_zip_slip_witness :
    safeExtractZip [⟨false, [['a']]⟩, ⟨false, [['.', '.'], ['x']]⟩] [['d']] =
      Except.error () ∧
    safeExtractZip [⟨false, [['a']]⟩] [['d']] = Except.ok [[['d'], ['a']]] := by
  constructor
  · exact (C1_zip_slip [['d']] [⟨false, [['a']]⟩, ⟨false, [['.', '.'], ['x']]⟩]
      (by decide) (by decide)).1 ⟨⟨false, [['.', '.'], ['x']]⟩, by decide, by decide⟩
  · exact (C1_zip_slip [['d']] [⟨false, [['a']]⟩] (by decide) (by decide)).2 (by decide)

/-- Counterexample to claim C2: a batch repeating one id is counted (and
inserted) once per record, so `inserted_count` is 2 where the claim's
"number of ids not already persisted" is 1. -/
theorem C2_count_counterexample :
    (insertTransactionsForSuspect
      (insertTransactionsForSuspect [] []).1 [some ['A'], some ['A']]).2 = 2 ∧
    ((([some ['A'], some ['A']] : List (Option (List Char))).filterMap
        truthyId).dedup.filter
      (fun tid => decide (tid ∉ (insertTransactionsForSuspect [] []).1))).length = 1 := by
  constructor <;> decide

/-- Claim C2 amended: after two insertions the persisted id set is the
union of the prior ids and the truthy ids of both batches, and the second
call's `inserted_count` counts the second batch's records (not its distinct
ids) whose id is truthy and not yet persisted when the second call starts. -/
theorem C2_insert_amended (persisted : List (List Char))
    (b1 b2 : List (Option (List Char))) :
    ((insertTransactionsForSuspect
        (insertTransactionsForSuspect persisted b1).1 b2).1).toFinset =
      persisted.toFinset ∪ (b1.filterMap truthyId).toFinset ∪
        (b2.filterMap truthyId).toFinset ∧
    (insertTransactionsForSuspect (insertTransactionsForSuspect persisted b1).1 b2).2 =
      b2.countP (fun item =>
        match truthyId item with
        | some tid => decide (tid ∉ (insertTransactionsForSuspect persisted b1).1)
        | none => false) := by
  constructor
  · ext x
    simp only [List.mem_toFinset, Finset.mem_union, mem_insert_fst, List.mem_filterMap]
  · exact insert_count

/-- Counterexample to claim C3: a report-archive job reaching its `done`
terminal state flushes nothing to any audit file. -/
theorem C3_report_counterexample :
    (processReportUploadJob true (.success "index.html")).1.status = "done" ∧
    (processReportUploadJob true (.success "index.html")).2 = [] :=
  ⟨rfl, rfl⟩

/-- Claim C3 amended: bill jobs flush the terminal record through the
temp-file/rename writer on the `done` path and on the outer-exception
`error` path, but not on the missing-suspect `error` path; report jobs
never write an audit file on any terminal path. -/
theorem C3_audit_amended :
    (∀ jobId suspectId files,
      (processBillUploadJob jobId suspectId none true files).1.status = "done" ∧
      (processBillUploadJob jobId suspectId none true files).2 =
        [writeBillJobResult jobId suspectId ⟨"done", none, files, none, none⟩]) ∧
    (∀ jobId suspectId msg se files,
      (processBillUploadJob jobId suspectId (some msg) se files).1.status = "error" ∧
      (processBillUploadJob jobId suspectId (some msg) se files).2 =
        [writeBillJobResult jobId suspectId ⟨"error", some msg, [], none, none⟩]) ∧
    (∀ jobId suspectId files,
      (processBillUploadJob jobId suspectId none false files).1.status = "error" ∧
      (processBillUploadJob jobId suspectId none false files).2 = []) ∧
    (∀ se outcome, (processReportUploadJob se outcome).2 = []) ∧
    (∀ p payload,
      (writeJsonAtomic p payload).tmpPath = (writeJsonAtomic p payload).path ++ ".tmp") := by
  refine ⟨fun j s f => ⟨rfl, rfl⟩, fun j s m se f => ⟨rfl, rfl⟩,
    fun j s f => ⟨rfl, rfl⟩, fun se o => ?_, fun p pl => rfl⟩
  cases se <;> cases o <;> rfl

/-- Counterexample to claim C4: a log entry inside the reports tree whose
timestamp is within the threshold is nevertheless dropped from the log when
its root is missing on disk, so fresh entries are not "left unchanged". -/
theorem C4_fresh_dropped_counterexample :
    containedIn [['r']] [['r'], ['1'], ['v']] ∧
    ¬ ((99 : Int) < 100 - 30) ∧
    (cleanupStaleReports [['r']] 100 30 (fun _ => false) sweepLogC).1 = [] ∧
    (cleanupStaleReports [['r']] 100 30 (fun _ => false) sweepLogC).2 = [] := by
  refine ⟨by decide, by decide, by decide, by decide⟩

/-- Claim C4 amended: for a log whose keys are distinct and whose paths
have normalized components, a tracked root inside the reports tree that is
stale and still on disk has its container directory scheduled for deletion
and its entry dropped from the log; a fresh one that is still on disk keeps
its entry; and everything scheduled for deletion is the container of some
stale on-disk tracked root (entries missing on disk are dropped from the
log without any deletion). -/
theorem C4_retention_amended (rd : List (List Char)) (now maxAge : Int)
    (disk : List (List Char) → Bool) (log : List (List (List Char) × Option Int))
    (hrd : validPath rd)
    (hvalid : ∀ e ∈ log, ∀ c ∈ e.1, validComp c)
    (hnodup : (log.map Prod.fst).Nodup) :
    (∀ p v, (p, some v) ∈ log → containedIn rd p → disk p = true → v < now - maxAge →
      containerDir rd p ∈ (cleanupStaleReports rd now maxAge disk log).2 ∧
      ∀ ts, (p, ts) ∉ (cleanupStaleReports rd now maxAge disk log).1) ∧
    (∀ p v, (p, some v) ∈ log → containedIn rd p → disk p = true →
      ¬ (v < now - maxAge) →
      (p, some v) ∈ (cleanupStaleReports rd now maxAge disk log).1) ∧
    (∀ t ∈ (cleanupStaleReports rd now maxAge disk log).2,
      ∃ q ts, (q, ts) ∈ log ∧ containedIn rd q ∧ disk q = true ∧
        ts.getD now < now - maxAge ∧ t = containerDir rd q) := by
  refine ⟨?_, ?_, ?_⟩
  · intro p v hm hcont hdk hst
    have hw : isWithinB rd p = true := (render_pre_iff hrd (hvalid (p, some v) hm)).mpr hcont
    have hdel : p ∈ (sweepPass1 rd now (now - maxAge) disk log).2 :=
      (pass1_delete_iff log p).mpr ⟨some v, hm, hw, hdk, hst⟩
    constructor
    · have hcover := sweepTargets_cover (sweepPass1 rd now (now - maxAge) disk log).2 [] p hdel hw
      rcases hcover with ht | ht
      · show containerDir rd p ∈
          (sweepTargets rd (sweepPass1 rd now (now - maxAge) disk log).2 []).filter (isWithinB rd)
        exact List.mem_filter.mpr ⟨ht, (containerDir_within hrd (hvalid (p, some v) hm) hw).1⟩
      · simp at ht
    · intro ts hmem
      have hmem' : (p, ts) ∈ (sweepPass1 rd now (now - maxAge) disk log).1 := hmem
      have hk := pass1_kept log p ts hmem'
      have hts : ts = some v := log_key_unique log hnodup p ts (some v) hk.1 hm
      subst hts
      exact hk.2.2.2 hst
  · intro p v hm hcont hdk hfresh
    have hw : isWithinB rd p = true := (render_pre_iff hrd (hvalid (p, some v) hm)).mpr hcont
    exact pass1_kept_of log p (some v) hm hw hdk hfresh
  · intro t ht
    obtain ⟨q, ts, hmq, hwq, hdq, hts, hteq, _⟩ := deleted_src t ht
    exact ⟨q, ts, hmq, (render_pre_iff hrd (hvalid (q, ts) hmq)).mp hwq, hdq, hts, hteq⟩

/-- Witness for C4 at a concrete log: the stale root's container is
scheduled and the fresh root's entry survives. -/
theorem C4_retention_witness :
    containerDir [['r']] [['r'], ['1'], ['v'], ['x']] ∈
      (cleanupStaleReports [['r']] 100 30 (fun _ => true) sweepLogA).2 ∧
    ([['r'], ['2'], ['w']], some (95 : Int)) ∈
      (cleanupStaleReports [['r']] 100 30 (fun _ => true) sweepLogA).1 := by
  have H := C4_retention_amended [['r']] 100 30 (fun _ => true) sweepLogA
    (by decide) (by decide) (by decide)
  exact ⟨(H.1 [['r'], ['1'], ['v'], ['x']] 10 (by decide) (by decide) rfl (by decide)).1,
    H.2.1 [['r'], ['2'], ['w']] 95 (by decide) (by decide) rfl (by decide)⟩

/-- Claim C5 (confirmed): a log entry whose root lies outside the managed
reports tree is ignored by the sweep — no scheduled deletion target covers
that root, whatever its recorded timestamp. -/
theorem C5_outside_ignored (rd : List (List Char)) (now maxAge : Int)
    (disk : List (List Char) → Bool) (log : List (List (List Char) × Option Int))
    (p : List (List Char)) (ts : Option Int)
    (hrd : validPath rd)
    (hvalid : ∀ e ∈ log, ∀ c ∈ e.1, validComp c)
    (hmem : (p, ts) ∈ log)
    (hout : ¬ containedIn rd p) :
    ∀ t ∈ (cleanupStaleReports rd now maxAge disk log).2, t.isPrefixOf p = false := by
  intro t ht
  obtain ⟨q, ts', hmq, hwq, _, _, hteq, htw⟩ := deleted_src t ht
  have htv : ∀ c ∈ t, validComp c := by
    rw [hteq]
    exact (containerDir_within hrd (hvalid (q, ts') hmq) hwq).2
  have hcont : containedIn rd t := (render_pre_iff hrd htv).mp htw
  cases hb : t.isPrefixOf p with
  | false => rfl
  | true =>
    exfalso
    refine hout ⟨preTrans hcont.1 hb, ?_⟩
    intro heq
    subst heq
    exact hcont.2 (preAntisymm hcont.1 hb)

/-- Witness for C5: in a concrete sweep the one deleted container is no
prefix of the outside root recorded in the same log. -/
theorem C5_outside_witness :
    (containerDir [['r']] [['r'], ['1'], ['v'], ['z']]).isPrefixOf [['o'], ['x']] = false :=
  C5_outside_ignored [['r']] 100 30 (fun _ => true) sweepLogB [['o'], ['x']] (some 5)
    (by decide) (by decide) (by decide) (by decide)
    (containerDir [['r']] [['r'], ['1'], ['v'], ['z']]) (by decide)

/-- Counterexample to claim C6: the PDF table route emits the parsed
amount unchanged, so a negative amount cell yields a transaction with a
negative amount field. -/
theorem C6_negative_counterexample :
    parsePdfBill [wxNegPage] = Except.ok [wxNegTx] ∧ wxNegTx.amount < 0 :=
  ⟨by decide, by decide⟩

/-- Claim C6 amended: only the text-block reconstructor takes the absolute
value of the matched amount; the PDF table mappings and the spreadsheet
mappings store the parsed amount with its sign. -/
theorem C6_amount_amended :
    (∀ block tx, parseWechatTextBlock block = some tx → 0 ≤ tx.amount) ∧
    (∀ row tx, rowToTx .wechat row = some tx →
      tx.amount = parseAmountStr ((row.map cleanStr).getD 5 [])) ∧
    (∀ row tx, rowToTx .alipay row = some tx →
      tx.amount = parseAmountStr ((row.map cleanStr).getD 4 [])) ∧
    (∀ headers row tx, excelRowToTx .wechat headers row = some tx →
      tx.amount = parseAmountOpt (getCol headers row
        (if "金额(元)".toList ∈ headers then "金额(元)".toList else "金额".toList))) ∧
    (∀ headers row tx, excelRowToTx .alipay headers row = some tx →
      tx.amount = parseAmountOpt (getCol headers row ("金额".toList))) :=
  ⟨fun _ _ h => (parseBlock_inv h).2.2,
   fun _ _ h => rowToTx_wechat_amount h,
   fun _ _ h => rowToTx_alipay_amount h,
   fun _ _ _ h => (excelRow_wechat_inv h).2,
   fun _ _ _ h => (excelRow_alipay_inv h).2⟩

/-- Witness for C6 amended: a concrete block yields a non-negative amount
and the concrete negative PDF row keeps its parsed, negative amount. -/
theorem C6_amount_witness :
    (0 : ℚ) ≤ wxBlockTx.amount ∧
    wxNegTx.amount = parseAmountStr ((wxNegRow.map cleanStr).getD 5 []) :=
  ⟨C6_amount_amended.1 wxBlock wxBlockTx (by decide),
   C6_amount_amended.2.1 wxNegRow wxNegTx (by decide)⟩

/-- Claim C7 (confirmed): dispatch is strictly by lower-cased extension —
the PDF and spreadsheet extensions route to their extractors, image
extensions are rejected with the fixed message, anything else is rejected
as unsupported; every rejection is an error carrying no transactions. -/
theorem C7_dispatch (path : List Char) (content : FileContent) :
    (toLowerAscii (splitExtPy path) = ".pdf".toList →
      parseBillFile path content = parsePdfBill content.pdfPages) ∧
    ((toLowerAscii (splitExtPy path) = ".xlsx".toList ∨
        toLowerAscii (splitExtPy path) = ".xls".toList) →
      parseBillFile path content = Except.ok (parseExcelBill content.excelRows)) ∧
    (toLowerAscii (splitExtPy path) ∈ imageExts →
      parseBillFile path content = Except.error BillError.imageFormat ∧
      billErrorMsg BillError.imageFormat =
        "不支持纯图片格式的账单。系统无法识别图片内容，请上传 PDF 或 Excel 电子账单。".toList) ∧
    ((toLowerAscii (splitExtPy path) ≠ ".pdf".toList ∧
        ¬ (toLowerAscii (splitExtPy path) = ".xlsx".toList ∨
           toLowerAscii (splitExtPy path) = ".xls".toList) ∧
        toLowerAscii (splitExtPy path) ∉ imageExts) →
      parseBillFile path content =
        Except.error (BillError.unknownExt (toLowerAscii (splitExtPy path)))) := by
  simp only [parseBillFile]
  generalize toLowerAscii (splitExtPy path) = e
  refine ⟨?_, ?_, ?_, ?_⟩
  · intro h
    rw [if_pos h]
  · intro h
    rw [if_neg (by rcases h with h | h <;> subst h <;> decide), if_pos h]
  · intro h
    refine ⟨?_, rfl⟩
    simp only [imageExts] at h
    fin_cases h <;> rfl
  · intro h
    rw [if_neg h.1, if_neg h.2.1, if_neg h.2.2]

/-- Witness for C7 on concrete paths of each class. -/
theorem C7_dispatch_witness :
    parseBillFile "bill.pdf".toList ⟨[], []⟩ = parsePdfBill [] ∧
    parseBillFile "bill.xlsx".toList ⟨[], []⟩ = Except.ok (parseExcelBill []) ∧
    parseBillFile "bill.JPG".toList ⟨[], []⟩ = Except.error BillError.imageFormat ∧
    parseBillFile "bill.docx".toList ⟨[], []⟩ =
      Except.error (BillError.unknownExt (toLowerAscii (splitExtPy "bill.docx".toList))) :=
  ⟨(C7_dispatch "bill.pdf".toList ⟨[], []⟩).1 (by decide),
   (C7_dispatch "bill.xlsx".toList ⟨[], []⟩).2.1 (Or.inl (by decide)),
   ((C7_dispatch "bill.JPG".toList ⟨[], []⟩).2.2.1 (by decide)).1,
   (C7_dispatch "bill.docx".toList ⟨[], []⟩).2.2.2 ⟨by decide, by decide, by decide⟩⟩

/-- Claim C8 (confirmed): the id the reconstructor extracts is one of the
block's maximal digit runs of length at least 16, of maximal length, and
lexicographically least among the runs sharing that length. -/
theorem C8_longest_run (block : List Char) (tx : Transaction)
    (h : parseWechatTextBlock block = some tx) :
    tx.transaction_id ∈ (digitRuns block).filter (fun c => 16 ≤ c.length) ∧
    ∀ c ∈ (digitRuns block).filter (fun c => 16 ≤ c.length),
      c.length ≤ tx.transaction_id.length ∧
      (c.length = tx.transaction_id.length →
        (tx.transaction_id = c ∨ lexLtCh tx.transaction_id c = true)) := by
  obtain ⟨htid, hne, _⟩ := parseBlock_inv h
  have hspec := pickBest_spec htid.symm hne
  have hru : digitRuns (stripPy (collapseWs ' ' false block)) = digitRuns block := by
    rw [digitRuns_stripPy, digitRuns_collapseWs (show isDigitCh ' ' = false from by decide)]
  rw [hru] at hspec
  exact hspec

/-- Witness for C8 on a concrete tie between two 16-digit runs: the chosen
id is a qualifying run and no qualifying run is longer. -/
theorem C8_longest_run_witness :
    wxTieTx.transaction_id ∈ (digitRuns wxTieBlock).filter (fun c => 16 ≤ c.length) ∧
    "9999999999999999".toList.length ≤ wxTieTx.transaction_id.length := by
  have H := C8_longest_run wxTieBlock wxTieTx (by decide)
  exact ⟨H.1, (H.2 "9999999999999999".toList (by decide)).1⟩

/-- Claim C9 (confirmed): `parse_datetime` parses both sample strings, and
an input that every accepted format rejects yields null; the embedding is
a total function, as the source catches every `ValueError` of `strptime`. -/
theorem C9_datetime_totality (s : List Char)
    (hfail : ∀ f ∈ pyFormats, strptimeFmt f (normalizeDt s) = none) :
    (parseDatetimeStr "2021-06-01 12:00".toList).isSome = true ∧
    (parseDatetimeStr "2021.06.01 12:00:00".toList).isSome = true ∧
    parseDatetimeStr s = none := by
  refine ⟨by decide, by decide, ?_⟩
  unfold parseDatetimeStr
  exact List.findSome?_eq_none_iff.mpr hfail

/-- Witness for C9 at a concrete unparseable string. -/
theorem C9_datetime_witness :
    (parseDatetimeStr "2021-06-01 12:00".toList).isSome = true ∧
    (parseDatetimeStr "2021.06.01 12:00:00".toList).isSome = true ∧
    parseDatetimeStr "not a date".toList = none :=
  C9_datetime_totality "not a date".toList (by decide)

/-- Claim C10 (confirmed): every transaction any parser entry point
returns has a non-empty transaction id — id-less rows and blocks are
dropped rather than emitted. -/
theorem C10_nonempty_ids :
    (∀ pages txs tx, parsePdfBill pages = Except.ok txs → tx ∈ txs →
      tx.transaction_id ≠ []) ∧
    (∀ rows tx, tx ∈ parseExcelBill rows → tx.transaction_id ≠ []) ∧
    (∀ t tx, tx ∈ parseWechatTextPage t → tx.transaction_id ≠ []) := by
  refine ⟨?_, ?_, ?_⟩
  · intro pages txs tx h hm
    rcases parsePdfBill_src h hm with ⟨bt, row, hr⟩ | ⟨block, hb⟩
    · exact rowToTx_tid hr
    · exact (parseBlock_inv hb).2.1
  · intro rows tx h
    obtain ⟨bt, headers, row, hr⟩ := parseExcelBill_mem h
    exact excelRowToTx_tid hr
  · intro t tx h
    obtain ⟨block, hb⟩ := parseWechatTextPage_src h
    exact (parseBlock_inv hb).2.1

/-- Witness for C10 on the concrete PDF page and text page. -/
theorem C10_nonempty_witness :
    wxNegTx.transaction_id ≠ [] ∧ wxBlockTx.transaction_id ≠ [] :=
  ⟨C10_nonempty_ids.1 [wxNegPage] [wxNegTx] wxNegTx (by decide) (by decide),
   C10_nonempty_ids.2.2 (some wxBlock) wxBlockTx (by decide)⟩

end BillSherlock

